import Mathlib

/-! # datagen: tree generator, worker pool and directory querier

A shallow embedding of `src/datagen.cpp` and the properties of its
specification that were settled against it.

Conventions of the embedding.

* `int` values are integers wrapped to 32 bits two's complement after every
  arithmetic step (`wrapInt32`); `size_t` values are naturals, wrapped to
  64 bits where the source can overflow them (`wrapSize`).
* The filesystem is an oracle `fsFail` telling for which paths
  `fs::create_directories` throws, and a trace of the operations performed.
* The work units `createData` hands to the pool run interleaved, as a
  schedule dictates: `localFilesCreated++` on the shared plain `int` is a read
  followed by a write, and other units may run in between.
* The pool and the querier are transition systems: a schedule is a list of
  actions, each action is one atomic section of the source.
-/

namespace Datagen

/-! ## Machine integers -/

/-- The value an `int` holds after a result `x`: 32-bit two's complement. -/
def wrapInt32 (x : Int) : Int := (x + 2147483648) % 4294967296 - 2147483648

/-- The value a `size_t` holds after a result `x`: 64-bit unsigned. -/
def wrapSize (x : Nat) : Nat := x % 18446744073709551616

/-! ## Tree generator: `createData` -/

/-- A path below the target directory: the components `dir_<level>_<index>`,
outermost first. -/
abbrev Path := List (Nat × Nat)

/-- A filesystem operation that succeeded: `fs::create_directories(p)`, or
`writeToFile(dir / "file_<j>")`. -/
inductive FsOp where
  | mkdir (p : Path) : FsOp
  | write (dir : Path) (j : Nat) : FsOp
deriving DecidableEq, Repr

/-- The outcome of one `createData` call: `{localDirsCreated, localFilesCreated}`
and the operations it performed. -/
structure GenResult where
  dirs : Int
  files : Int
  trace : List FsOp
deriving DecidableEq, Repr

/-- Lines 164-169: the child paths `parentDir / dir_<currentLevel>_<i>`. -/
def directoriesToCreate (parentDir : Path) (numDirsPerLevel currentLevel : Nat) : List Path :=
  (List.range numDirsPerLevel).map (fun i => parentDir ++ [(currentLevel, i)])

/-- Lines 172-175: create the directories in order, counting each success.
The flag is `true` when `fs::create_directories` threw: the loop is left at
that point. -/
def createDirectories (fsFail : Path → Bool) : List Path → GenResult → GenResult × Bool
  | [], r => (r, false)
  | newDir :: rest, r =>
    if fsFail newDir then (r, true)
    else createDirectories fsFail rest
      { r with dirs := wrapInt32 (r.dirs + 1), trace := r.trace ++ [FsOp.mkdir newDir] }

/-- Line 182: the number of files a work unit writes. -/
def filesToCreate (numFilesPerDir currentLevel targetLevel numFilesAtTargetLevel : Nat) : Nat :=
  if currentLevel = targetLevel then numFilesAtTargetLevel else numFilesPerDir

/-- A work unit of lines 180-189 in execution: its directory, its loop
variable `j`, and the value of `localFilesCreated` it has read for the `++`
of the current iteration and not written back yet. -/
structure WorkUnit where
  dir : Path
  next : Nat
  held : Option Int
deriving DecidableEq, Repr

/-- The fan-out of one level, lines 178-195: the `int localFilesCreated`
that all work units share by reference, the operations performed so far, the
units waiting in the queue of the pool and the units in execution. -/
structure FanOut where
  files : Int
  trace : List FsOp
  queue : List WorkUnit
  running : List WorkUnit
deriving DecidableEq, Repr

/-- The atomic steps of the fan-out: a free worker takes the front unit of
the queue; the unit at position `k` of the running ones makes its next
step. -/
inductive FanAction where
  | dequeue : FanAction
  | step (k : Nat) : FanAction
deriving DecidableEq, Repr

/-- One step. `threads` is the number of workers of the pool (at least one,
specification 4.1); `count` is `filesToCreate`. A running unit alternates
between writing `file_j` and reading `localFilesCreated` (lines 185-187),
and writing back the value read plus one (the second half of line 187);
when its loop is over it returns and leaves its worker. An action that is
not possible leaves the state as it is. -/
def FanOut.act (threads : ℕ+) (count : Nat) (a : FanAction) (s : FanOut) : FanOut :=
  match a with
  | FanAction.dequeue =>
    match s.queue with
    | [] => s
    | u :: rest =>
      if s.running.length < (threads : Nat) then
        { s with queue := rest, running := s.running ++ [u] }
      else s
  | FanAction.step k =>
    match s.running[k]? with
    | none => s
    | some u =>
      match u.held with
      | some v =>
        { s with files := wrapInt32 (v + 1),
                 running := s.running.set k { u with next := u.next + 1, held := none } }
      | none =>
        if u.next < count then
          { s with trace := s.trace ++ [FsOp.write u.dir u.next],
                   running := s.running.set k { u with held := some s.files } }
        else { s with running := s.running.eraseIdx k }

/-- A unit runs to its end with no other unit in between: it writes back
what it holds, then writes and counts the files left. `writeToFile` reports
no failure (the stream is not checked), so every iteration counts. -/
def WorkUnit.finish (count : Nat) (u : WorkUnit) (acc : Int × List FsOp) : Int × List FsOp :=
  let start : Int × Nat :=
    match u.held with
    | some v => (wrapInt32 (v + 1), u.next + 1)
    | none => (acc.1, u.next)
  (List.range' start.2 (count - start.2)).foldl
    (fun a j => (wrapInt32 (a.1 + 1), a.2 ++ [FsOp.write u.dir j])) (start.1, acc.2)

/-- Lines 193-195: `future.get()` on every unit: whatever is still running or
queued comes to its end, the running units first. A schedule that is long
enough leaves nothing for this, so every interleaving is that of some
schedule. -/
def FanOut.drain (count : Nat) (s : FanOut) : Int × List FsOp :=
  (s.running ++ s.queue).foldl (fun acc u => u.finish count acc) (s.files, s.trace)

/-- Lines 178-195: one work unit per directory is submitted, the units run as
`sched` says, and all are awaited. -/
def runFileTasks (threads : ℕ+) (sched : List FanAction) (dirsList : List Path) (count : Nat)
    (r : GenResult) : GenResult :=
  let s : FanOut := sched.foldl (fun s a => FanOut.act threads count a s)
    { files := r.files, trace := r.trace,
      queue := dirsList.map (fun dir => { dir := dir, next := 0, held := none }),
      running := [] }
  { r with files := (s.drain count).1, trace := (s.drain count).2 }

/-- Lines 154-210. `threads` is the size of the pool and `sched` gives, for
the call on each parent directory, the schedule of its work units. `fuel`
bounds the recursion depth; `none` means the bound was hit. The level
counter is a `size_t`, so `currentLevel + 1` wraps. -/
def createData (fsFail : Path → Bool) (threads : ℕ+) (sched : Path → List FanAction) :
    (fuel : Nat) → (parentDir : Path) → (numLevels numDirsPerLevel numFilesPerDir fileSizeKB
      currentLevel targetLevel numFilesAtTargetLevel : Nat) → Option GenResult
  | 0, _, _, _, _, _, _, _, _ => none
  | fuel + 1, parentDir, numLevels, numDirsPerLevel, numFilesPerDir, fileSizeKB,
      currentLevel, targetLevel, numFilesAtTargetLevel =>
    if currentLevel > numLevels then some ⟨0, 0, []⟩
    else
      let toCreate := directoriesToCreate parentDir numDirsPerLevel currentLevel
      match createDirectories fsFail toCreate ⟨0, 0, []⟩ with
      | (r, true) => some r
      | (r, false) =>
        let r1 := runFileTasks threads (sched parentDir) toCreate
          (filesToCreate numFilesPerDir currentLevel targetLevel numFilesAtTargetLevel) r
        toCreate.foldlM
          (fun acc dir =>
            (createData fsFail threads sched fuel dir numLevels numDirsPerLevel numFilesPerDir
              fileSizeKB (wrapSize (currentLevel + 1)) targetLevel numFilesAtTargetLevel).map
              (fun sub => { dirs := wrapInt32 (acc.dirs + sub.dirs),
                            files := wrapInt32 (acc.files + sub.files),
                            trace := acc.trace ++ sub.trace }))
          r1

/-- The schedule that leaves everything to the final wait: the units run one
after another, in submission order. -/
def noSchedule : Path → List FanAction := fun _ => []

/-- No directory creation fails. -/
def fsOk : Path → Bool := fun _ => false

/-- The directory an operation acts on. -/
def FsOp.path : FsOp → Path
  | FsOp.mkdir p => p
  | FsOp.write dir _ => dir

/-- A file was written. -/
def FsOp.isWrite : FsOp → Bool
  | FsOp.mkdir _ => false
  | FsOp.write _ _ => true

/-- The files a work unit has still to write. -/
def WorkUnit.owed (count : Nat) (u : WorkUnit) : List FsOp :=
  match u.held with
  | some _ => (List.range' (u.next + 1) (count - (u.next + 1))).map (FsOp.write u.dir)
  | none => (List.range' u.next (count - u.next)).map (FsOp.write u.dir)

/-- The increments a work unit has still to make. -/
def WorkUnit.todo (count : Nat) (u : WorkUnit) : Nat := count - u.next

/-! ### Closed forms used to state the results -/

/-- Directories in a complete tree of `k` levels with branching `n`:
`n + n^2 + ... + n^k`, by the recursion of `createData`. -/
def dirsBelow (n : Nat) : Nat → Nat
  | 0 => 0
  | k + 1 => n + n * dirsBelow n k

/-- Files in the `k` levels starting at level `L`, when a directory of level
`l` holds `f l` files. -/
def filesBelow (n : Nat) (f : Nat → Nat) : Nat → Nat → Nat
  | 0, _ => 0
  | k + 1, L => n * f L + n * filesBelow n f k (L + 1)

/-- The operations of a failure-free run over `k` levels from `parentDir`. -/
def expectedTrace (n : Nat) (f : Nat → Nat) : Nat → Path → Nat → List FsOp
  | 0, _, _ => []
  | k + 1, parentDir, L =>
    (directoriesToCreate parentDir n L).map FsOp.mkdir
      ++ (directoriesToCreate parentDir n L).flatMap
          (fun dir => (List.range (f L)).map (FsOp.write dir))
      ++ (directoriesToCreate parentDir n L).flatMap
          (fun dir => expectedTrace n f k dir (L + 1))

/-! ## Worker pool: `ThreadPool` -/

/-- Where a worker thread stands in `workerFunction`: blocked in the wait of
line 114, inside `task()` at line 124, or returned at line 117. -/
inductive Worker where
  | waiting : Worker
  | running (task : Nat) : Worker
  | exited : Worker
deriving DecidableEq, Repr

/-- The pool: the fields of the class, work units being named by numbers.
`working_threads_` never exceeds the number of worker threads, so its `int`
is kept as an integer. `submitted` and `executed` are history variables: the
units `enqueue` accepted, and the units whose `task()` returned. -/
structure ThreadPool where
  workers_ : List Worker
  tasks_ : List Nat
  stop_ : Bool
  working_threads_ : Int
  submitted : List Nat
  executed : List Nat
deriving DecidableEq, Repr

/-- Lines 69-72: `threads` workers, all about to wait. -/
def ThreadPool.create (threads : Nat) : ThreadPool :=
  { workers_ := List.replicate threads Worker.waiting, tasks_ := [], stop_ := false,
    working_threads_ := 0, submitted := [], executed := [] }

/-- Lines 93-99: `enqueue` under the lock; on a stopped pool it throws and
leaves the pool as it was (`none`). -/
def ThreadPool.enqueue (task : Nat) (s : ThreadPool) : Option ThreadPool :=
  if s.stop_ then none
  else some { s with tasks_ := s.tasks_ ++ [task], submitted := s.submitted ++ [task] }

/-- Lines 112-122: worker `w` leaves the wait (possible when `stop_` is set or
the queue is not empty), then returns if `stop_ && tasks_.empty()`, else
takes the front unit and counts itself busy. -/
def ThreadPool.workerFunctionDequeue (w : Nat) (s : ThreadPool) : Option ThreadPool :=
  match s.workers_[w]? with
  | some Worker.waiting =>
    if s.stop_ || !s.tasks_.isEmpty then
      if s.stop_ && s.tasks_.isEmpty then
        some { s with workers_ := s.workers_.set w Worker.exited }
      else
        match s.tasks_ with
        | [] => none
        | task :: rest =>
          some { s with tasks_ := rest, working_threads_ := s.working_threads_ + 1,
                        workers_ := s.workers_.set w (Worker.running task) }
    else none
  | _ => none

/-- Lines 124-132: the unit of worker `w` returns and the worker counts
itself idle again. -/
def ThreadPool.workerFunctionFinish (w : Nat) (s : ThreadPool) : Option ThreadPool :=
  match s.workers_[w]? with
  | some (Worker.running task) =>
    some { s with working_threads_ := s.working_threads_ - 1,
                  workers_ := s.workers_.set w Worker.waiting,
                  executed := s.executed ++ [task] }
  | _ => none

/-- Lines 75-78: the destructor sets `stop_`. -/
def ThreadPool.shutdown (s : ThreadPool) : ThreadPool := { s with stop_ := true }

/-- Line 106: the condition on which `waitFinished` returns. -/
def ThreadPool.waitFinishedReturns (s : ThreadPool) : Bool :=
  s.tasks_.isEmpty && (s.working_threads_ == 0)

/-- Lines 80-81: the destructor's joins are over when every worker returned. -/
def ThreadPool.allJoined (s : ThreadPool) : Bool :=
  s.workers_.all (fun w => w == Worker.exited)

/-- The atomic sections that can be interleaved. -/
inductive PoolAction where
  | enqueue (task : Nat) : PoolAction
  | dequeue (w : Nat) : PoolAction
  | finish (w : Nat) : PoolAction
  | shutdown : PoolAction
deriving DecidableEq, Repr

/-- One action; `none` when it cannot happen in `s`. -/
def ThreadPool.step (a : PoolAction) (s : ThreadPool) : Option ThreadPool :=
  match a with
  | PoolAction.enqueue task => s.enqueue task
  | PoolAction.dequeue w => s.workerFunctionDequeue w
  | PoolAction.finish w => s.workerFunctionFinish w
  | PoolAction.shutdown => some s.shutdown

/-- A schedule, action after action. -/
def ThreadPool.run : List PoolAction → ThreadPool → Option ThreadPool
  | [], s => some s
  | a :: rest, s => (s.step a).bind (ThreadPool.run rest)

/-- A worker that has dequeued a unit and not finished it. -/
def Worker.isRunning : Worker → Bool
  | Worker.running _ => true
  | _ => false

/-- The unit a worker is executing, if any. -/
def Worker.task? : Worker → Option Nat
  | Worker.running task => some task
  | _ => none

/-- The units being executed. -/
def ThreadPool.inFlight (s : ThreadPool) : List Nat := s.workers_.filterMap Worker.task?

/-! ## Directory querier: `DirectoryQuerier` -/

/-- A directory entry as `fs::directory_iterator` classifies it: a regular
file, a directory with its own entries, or anything else. A directory is
given by the list of its entries. -/
inductive Entry where
  | file : Entry
  | other : Entry
  | dir (children : List Entry) : Entry
deriving Repr

/-- The querier, its pool and the caller's two counters. `tasks_` is the
queue of the pool: the directories whose scan was submitted; `scanning` holds
the units in execution, each with the entries its loop has not visited yet.
`active_tasks_` is bounded by the number of directories of the tree and the
counters by its number of entries, so they are kept as unbounded numbers.
`submitted` and `finished` are history variables: units handed to the pool,
units that ended their scan. -/
structure Querier where
  threads : Nat
  tasks_ : List (List Entry)
  scanning : List (List Entry)
  active_tasks_ : Int
  file_count : Nat
  dir_count : Nat
  submitted : Nat
  finished : Nat
deriving Repr

/-- A fresh querier over a pool of `threads` workers (lines 253-254). -/
def Querier.create (threads : Nat) : Querier :=
  { threads := threads, tasks_ := [], scanning := [], active_tasks_ := 0,
    file_count := 0, dir_count := 0, submitted := 0, finished := 0 }

mutual
/-- Lines 295-308 with `use_concurrency_ = false`: the loop over the entries
of a directory, on the calling thread. -/
def traverseDirectoryTaskSeq : List Entry → Querier → Querier
  | [], s => s
  | e :: rest, s => traverseDirectoryTaskSeq rest (classifySeq e s)
/-- Lines 296-306 with `use_concurrency_ = false`: a directory is counted and
walked at once (`traverseDirectory` calls `traverseDirectoryTask`), a regular
file is counted, anything else is skipped. -/
def classifySeq : Entry → Querier → Querier
  | Entry.file, s => { s with file_count := s.file_count + 1 }
  | Entry.other, s => s
  | Entry.dir children, s =>
    traverseDirectoryTaskSeq children { s with dir_count := s.dir_count + 1 }
end

/-- Lines 283-287, `use_concurrency_ = true`: count the unit in
`active_tasks_`, then hand the scan of `path` to the pool. -/
def Querier.traverseDirectory (path : List Entry) (s : Querier) : Querier :=
  { s with active_tasks_ := s.active_tasks_ + 1, tasks_ := s.tasks_ ++ [path],
           submitted := s.submitted + 1 }

/-- Lines 296-306 with `use_concurrency_ = true`: one iteration of the loop
of a work unit. -/
def Querier.classify (e : Entry) (s : Querier) : Querier :=
  match e with
  | Entry.file => { s with file_count := s.file_count + 1 }
  | Entry.other => s
  | Entry.dir children =>
    Querier.traverseDirectory children { s with dir_count := s.dir_count + 1 }

/-- Lines 271-274: the state in which `queryDirectoryRecursively` has called
`traverseDirectory(target_dir_)`. In sequential mode the walk is over; in
concurrent mode the workers go on from here. -/
def queryDirectoryRecursively (use_concurrency : Bool) (threads : Nat)
    (target_dir : List Entry) : Querier :=
  if use_concurrency then (Querier.create threads).traverseDirectory target_dir
  else traverseDirectoryTaskSeq target_dir (Querier.create threads)

/-- Line 278: the condition on which the concurrent call returns. -/
def Querier.returns (s : Querier) : Bool := s.active_tasks_ == 0

/-- The atomic sections of a concurrent traversal: a worker takes the front
unit of the queue; the unit at position `k` handles its next entry; the unit
at position `k`, its loop over, decrements `active_tasks_`. -/
inductive QuerierAction where
  | dequeue : QuerierAction
  | scan (k : Nat) : QuerierAction
  | finish (k : Nat) : QuerierAction
deriving DecidableEq, Repr

/-- One action; `none` when it cannot happen in `s`. -/
def Querier.step (a : QuerierAction) (s : Querier) : Option Querier :=
  match a with
  | QuerierAction.dequeue =>
    match s.tasks_ with
    | [] => none
    | path :: rest =>
      if s.scanning.length < s.threads then
        some { s with tasks_ := rest, scanning := s.scanning ++ [path] }
      else none
  | QuerierAction.scan k =>
    match s.scanning[k]? with
    | some (e :: rest) => some (Querier.classify e { s with scanning := s.scanning.set k rest })
    | _ => none
  | QuerierAction.finish k =>
    match s.scanning[k]? with
    | some [] =>
      some { s with scanning := s.scanning.eraseIdx k, active_tasks_ := s.active_tasks_ - 1,
                    finished := s.finished + 1 }
    | _ => none

/-- A schedule, action after action. -/
def Querier.run : List QuerierAction → Querier → Option Querier
  | [], s => some s
  | a :: rest, s => (s.step a).bind (Querier.run rest)

mutual
/-- Regular files in a directory, at any depth. -/
def countFilesL : List Entry → Nat
  | [] => 0
  | e :: rest => countFiles e + countFilesL rest
/-- Regular files an entry stands for. -/
def countFiles : Entry → Nat
  | Entry.file => 1
  | Entry.other => 0
  | Entry.dir children => countFilesL children
end

mutual
/-- Directories in a directory, at any depth. -/
def countDirsL : List Entry → Nat
  | [] => 0
  | e :: rest => countDirs e + countDirsL rest
/-- Directories an entry stands for: itself and those below. -/
def countDirs : Entry → Nat
  | Entry.file => 0
  | Entry.other => 0
  | Entry.dir children => 1 + countDirsL children
end

mutual
/-- Steps a traversal needs for a directory: one per entry, and three more
per subdirectory (taking it from the queue, ending its scan, and one spare). -/
def workL : List Entry → Nat
  | [] => 0
  | e :: rest => work e + workL rest
/-- Steps an entry costs. -/
def work : Entry → Nat
  | Entry.file => 1
  | Entry.other => 1
  | Entry.dir children => workL children + 3
end

/-- Steps left before a traversal is over: a queued unit must still be taken
from the queue, and every unit must still end its scan. -/
def Querier.remaining (s : Querier) : Nat :=
  (s.tasks_.map (fun u => workL u + 2)).sum + (s.scanning.map (fun u => workL u + 1)).sum

/-! ## `main`: the argument checks -/

/-- How `main` ends: `return code`, or no return at all (an exception nobody
catches, a read through the null `argv[argc]`, an integer division by
zero). -/
inductive MainExit where
  | returned (code : Int) : MainExit
  | terminated : MainExit
deriving DecidableEq, Repr

/-- The end of `main` and what it ran before: whether `createData` was
called, and how many traversal rounds were run. -/
structure MainResult where
  exit : MainExit
  wrote : Bool
  rounds : Nat
deriving DecidableEq, Repr

/-- Lines 396-466: the read phase. `argv[3]` is read without a check on
`argc`; `std::stoi` is `stoi`, `none` when it throws. The averages divide by
`test_rounds`. -/
def mainReadPhase (stoi : String → Option Int) (argv : List String) (wrote : Bool) :
    MainResult :=
  match argv[3]? with
  | none => ⟨MainExit.terminated, wrote, 0⟩
  | some arg =>
    match stoi arg with
    | none => ⟨MainExit.terminated, wrote, 0⟩
    | some test_rounds =>
      if test_rounds = 0 then ⟨MainExit.terminated, wrote, 0⟩
      else ⟨MainExit.returned 0, wrote, test_rounds.toNat⟩

/-- Lines 325-481, `argv` holding the `argc` arguments (program name first).
`std::stoull` is `stoull`, `none` when it throws. -/
def main (stoull : String → Option Nat) (stoi : String → Option Int) (argv : List String) :
    MainResult :=
  if argv.length < 3 then ⟨MainExit.returned 1, false, 0⟩
  else
    let mode := argv[1]?.getD ""
    if mode = "w" ∨ mode = "rw" then
      if argv.length ≠ 9 then ⟨MainExit.returned 1, false, 0⟩
      else
        match ((argv.drop 3).take 6).mapM stoull with
        | none => ⟨MainExit.terminated, false, 0⟩
        | some _ =>
          if mode = "r" ∨ mode = "rw" then mainReadPhase stoi argv true
          else ⟨MainExit.returned 0, true, 0⟩
    else if mode = "r" ∨ mode = "rw" then mainReadPhase stoi argv false
    else ⟨MainExit.returned 0, false, 0⟩

/-! ## The estimator: `calculateTotalFiles` -/

/-- Lines 215-231. The result is the returned `totalFiles` together with the
new value of the reference parameter `sumOfAllFiles`. All arithmetic is on
`size_t`. `fuel` bounds the recursion depth; `none` means the bound was
hit. -/
def calculateTotalFiles :
    (fuel : Nat) → (numLevels numDirsPerLevel numFilesPerDir currentLevel targetLevel
      numFilesAtTargetLevel sumOfAllFiles : Nat) → Option (Nat × Nat)
  | 0, _, _, _, _, _, _, _ => none
  | fuel + 1, numLevels, numDirsPerLevel, numFilesPerDir, currentLevel, targetLevel,
      numFilesAtTargetLevel, sumOfAllFiles =>
    if currentLevel = targetLevel then
      let filesAtLevel := wrapSize (numDirsPerLevel * numFilesAtTargetLevel)
      let totalFiles := wrapSize (0 + filesAtLevel)
      some (totalFiles, wrapSize (sumOfAllFiles + totalFiles))
    else if currentLevel < numLevels then
      match calculateTotalFiles fuel numLevels numDirsPerLevel numFilesPerDir
          (wrapSize (currentLevel + 1)) targetLevel numFilesAtTargetLevel sumOfAllFiles with
      | none => none
      | some (sub, sum1) =>
        let filesAtLevel := wrapSize (numDirsPerLevel * sub)
        let totalFiles := wrapSize (0 + filesAtLevel)
        some (totalFiles, wrapSize (sum1 + totalFiles))
    else some (0, sumOfAllFiles)

/-! ## Theorems -/

/-! ### Machine integers -/

theorem wrapInt32_zero : wrapInt32 0 = 0 := by decide

theorem wrapInt32_add_left (a b : Int) : wrapInt32 (wrapInt32 a + b) = wrapInt32 (a + b) := by
  unfold wrapInt32
  have h : (a + 2147483648) % 4294967296 - 2147483648 + b + 2147483648
      = (a + 2147483648) % 4294967296 + b := by ring
  rw [h, Int.add_emod, Int.emod_emod_of_dvd _ (dvd_refl _), ← Int.add_emod]
  have h2 : a + 2147483648 + b = a + b + 2147483648 := by ring
  rw [h2]

theorem wrapInt32_add_right (a b : Int) : wrapInt32 (a + wrapInt32 b) = wrapInt32 (a + b) := by
  rw [add_comm, wrapInt32_add_left, add_comm]

theorem wrapInt32_of_fits (x : Int) (h0 : -2147483648 ≤ x) (h1 : x < 2147483648) :
    wrapInt32 x = x := by
  unfold wrapInt32
  rw [Int.emod_eq_of_lt (by omega) (by omega)]
  omega

theorem wrapInt32_natCast_of_lt (x : Nat) (h : x < 2147483648) : wrapInt32 (x : Int) = x :=
  wrapInt32_of_fits _ (by omega) (by omega)

/-! ### Lists -/

theorem getElem?_split {α : Type} (l : List α) (w : Nat) (a : α) (h : l[w]? = some a) :
    ∃ pre post, l = pre ++ a :: post ∧ ∀ b, l.set w b = pre ++ b :: post := by
  induction l generalizing w with
  | nil => simp at h
  | cons x xs ih =>
    cases w with
    | zero =>
      simp only [List.getElem?_cons_zero, Option.some.injEq] at h
      subst h
      exact ⟨[], xs, rfl, fun b => rfl⟩
    | succ w =>
      simp only [List.getElem?_cons_succ] at h
      obtain ⟨pre, post, h1, h2⟩ := ih w h
      exact ⟨x :: pre, post, by rw [h1]; rfl, fun b => by rw [List.set_cons_succ, h2]; rfl⟩

theorem getElem?_split_erase {α : Type} (l : List α) (w : Nat) (a : α) (h : l[w]? = some a) :
    ∃ pre post, l = pre ++ a :: post ∧ l.eraseIdx w = pre ++ post := by
  induction l generalizing w with
  | nil => simp at h
  | cons x xs ih =>
    cases w with
    | zero =>
      simp only [List.getElem?_cons_zero, Option.some.injEq] at h
      subst h
      exact ⟨[], xs, rfl, rfl⟩
    | succ w =>
      simp only [List.getElem?_cons_succ] at h
      obtain ⟨pre, post, h1, h2⟩ := ih w h
      exact ⟨x :: pre, post, by rw [h1]; rfl, by rw [List.eraseIdx_cons_succ, h2]; rfl⟩

/-! ### The loops of `createData` without failures -/

theorem createDirectories_fsOk (ds : List Path) (x : Int) (fl : Int) (t : List FsOp) :
    createDirectories fsOk ds ⟨wrapInt32 x, fl, t⟩
      = (⟨wrapInt32 (x + ds.length), fl, t ++ ds.map FsOp.mkdir⟩, false) := by
  induction ds generalizing x t with
  | nil => simp [createDirectories]
  | cons d rest ih =>
    simp only [createDirectories, fsOk, Bool.false_eq_true, if_false]
    rw [wrapInt32_add_left, ih]
    simp only [List.length_cons, List.map_cons, List.append_assoc, List.singleton_append]
    congr 3
    push_cast
    ring

theorem length_directoriesToCreate (parentDir : Path) (n L : Nat) :
    (directoriesToCreate parentDir n L).length = n := by
  simp [directoriesToCreate]

/-! ### The fan-out of a level -/

theorem range'_foldl_trace (dir : Path) : ∀ (m a : Nat) (f : Int) (t : List FsOp),
    ((List.range' a m).foldl
        (fun (acc : Int × List FsOp) j => (wrapInt32 (acc.1 + 1), acc.2 ++ [FsOp.write dir j]))
        (f, t)).2
      = t ++ (List.range' a m).map (FsOp.write dir) := by
  intro m
  induction m with
  | zero => intro a f t; simp
  | succ m ih =>
    intro a f t
    rw [List.range'_succ, List.foldl_cons, ih]
    simp

theorem range'_foldl_count (dir : Path) : ∀ (m a : Nat) (y : Int) (t : List FsOp),
    ((List.range' a m).foldl
        (fun (acc : Int × List FsOp) j => (wrapInt32 (acc.1 + 1), acc.2 ++ [FsOp.write dir j]))
        (wrapInt32 y, t)).1
      = wrapInt32 (y + m) := by
  intro m
  induction m with
  | zero => intro a y t; simp
  | succ m ih =>
    intro a y t
    rw [List.range'_succ, List.foldl_cons]
    simp only []
    rw [wrapInt32_add_left, ih]
    congr 1
    push_cast
    ring

theorem finish_trace (count : Nat) (u : WorkUnit) (acc : Int × List FsOp) :
    (u.finish count acc).2 = acc.2 ++ u.owed count := by
  unfold WorkUnit.finish WorkUnit.owed
  cases h : u.held with
  | none => simp only [range'_foldl_trace]
  | some v => simp only [range'_foldl_trace]

theorem finish_count (count : Nat) (u : WorkUnit) (y : Int) (t : List FsOp)
    (h : u.held = none ∨ (u.held = some (wrapInt32 y) ∧ u.next < count)) :
    (u.finish count (wrapInt32 y, t)).1 = wrapInt32 (y + u.todo count) := by
  unfold WorkUnit.finish WorkUnit.todo
  rcases h with h | ⟨h, hlt⟩
  · simp only [h, range'_foldl_count]
  · simp only [h]
    rw [wrapInt32_add_left, range'_foldl_count]
    congr 1
    omega

theorem foldl_finish_trace (count : Nat) : ∀ (us : List WorkUnit) (acc : Int × List FsOp),
    (us.foldl (fun a u => WorkUnit.finish count u a) acc).2
      = acc.2 ++ us.flatMap (WorkUnit.owed count) := by
  intro us
  induction us with
  | nil => intro acc; simp
  | cons u rest ih =>
    intro acc
    rw [List.foldl_cons, ih, finish_trace]
    simp

theorem foldl_finish_count (count : Nat) : ∀ (us : List WorkUnit) (y : Int) (t : List FsOp),
    (∀ u ∈ us, u.held = none) →
    (us.foldl (fun a u => WorkUnit.finish count u a) (wrapInt32 y, t)).1
      = wrapInt32 (y + ((us.map (WorkUnit.todo count)).sum : Nat)) := by
  intro us
  induction us with
  | nil => intro y t _; simp
  | cons u rest ih =>
    intro y t hfresh
    rw [List.foldl_cons]
    have h1 := finish_count count u y t (Or.inl (hfresh u (List.mem_cons_self _ _)))
    have h2 : u.finish count (wrapInt32 y, t)
        = (wrapInt32 (y + u.todo count), (u.finish count (wrapInt32 y, t)).2) := by
      rw [← h1]
    rw [h2, ih _ _ (fun v hv => hfresh v (List.mem_cons_of_mem _ hv))]
    congr 1
    simp only [List.map_cons, List.sum_cons]
    push_cast
    ring

/-- The operations performed together with those still owed. -/
theorem act_ledger (threads : ℕ+) (count : Nat) (a : FanAction) (s : FanOut) :
    ((s.act threads count a).trace
        ++ ((s.act threads count a).running ++ (s.act threads count a).queue).flatMap
            (WorkUnit.owed count)).Perm
      (s.trace ++ (s.running ++ s.queue).flatMap (WorkUnit.owed count)) := by
  cases a with
  | dequeue =>
    simp only [FanOut.act]
    split
    · exact List.Perm.refl _
    · rename_i u rest hq
      split
      · simp only [hq, List.append_assoc, List.singleton_append]
        exact List.Perm.refl _
      · exact List.Perm.refl _
  | step k =>
    simp only [FanOut.act]
    split
    · exact List.Perm.refl _
    · rename_i u hk
      split
      · rename_i v hv
        obtain ⟨pre, post, hl, hset⟩ := getElem?_split _ _ _ hk
        simp only [hset]
        rw [hl]
        have : WorkUnit.owed count { u with next := u.next + 1, held := none }
            = WorkUnit.owed count u := by
          simp [WorkUnit.owed, hv]
        simp only [List.flatMap_append, List.flatMap_cons, this]
        exact List.Perm.refl _
      · rename_i hv
        split
        · rename_i hlt
          obtain ⟨pre, post, hl, hset⟩ := getElem?_split _ _ _ hk
          simp only [hset]
          rw [hl]
          have h1 : WorkUnit.owed count u
              = FsOp.write u.dir u.next
                :: WorkUnit.owed count { u with held := some s.files } := by
            have hc : count - u.next = (count - (u.next + 1)) + 1 := by omega
            simp only [WorkUnit.owed, hv]
            rw [hc, List.range'_succ]
            simp
          simp only [List.flatMap_append, List.flatMap_cons, h1]
          rw [List.perm_iff_count]
          intro x
          simp only [List.count_append, List.count_cons, List.count_nil]
          omega
        · rename_i hge
          obtain ⟨pre, post, hl, herase⟩ := getElem?_split_erase _ _ _ hk
          simp only [herase]
          rw [hl]
          have h0 : WorkUnit.owed count u = [] := by
            have hc : count - u.next = 0 := by omega
            simp [WorkUnit.owed, hv, hc]
          simp only [List.flatMap_append, List.flatMap_cons, h0, List.nil_append]
          exact List.Perm.refl _

theorem foldl_act_ledger (threads : ℕ+) (count : Nat) :
    ∀ (sched : List FanAction) (s : FanOut),
      ((sched.foldl (fun s a => FanOut.act threads count a s) s).trace
          ++ ((sched.foldl (fun s a => FanOut.act threads count a s) s).running
              ++ (sched.foldl (fun s a => FanOut.act threads count a s) s).queue).flatMap
                (WorkUnit.owed count)).Perm
        (s.trace ++ (s.running ++ s.queue).flatMap (WorkUnit.owed count)) := by
  intro sched
  induction sched with
  | nil => intro s; exact List.Perm.refl _
  | cons a rest ih =>
    intro s
    rw [List.foldl_cons]
    exact (ih _).trans (act_ledger threads count a s)

/-- Under every schedule and for every pool size the fan-out of a level
writes, into every directory of the level, its `count` files, and nothing
else; the directory count is not touched. -/
theorem runFileTasks_trace (threads : ℕ+) (sched : List FanAction) (ds : List Path)
    (count : Nat) (r : GenResult) :
    (runFileTasks threads sched ds count r).dirs = r.dirs
      ∧ (runFileTasks threads sched ds count r).trace.Perm
          (r.trace ++ ds.flatMap (fun dir => (List.range count).map (FsOp.write dir))) := by
  refine ⟨rfl, ?_⟩
  simp only [runFileTasks, FanOut.drain, foldl_finish_trace]
  refine (foldl_act_ledger threads count sched _).trans ?_
  simp only [List.nil_append]
  have : (ds.map (fun dir => ({ dir := dir, next := 0, held := none } : WorkUnit))).flatMap
      (WorkUnit.owed count)
      = ds.flatMap (fun dir => (List.range count).map (FsOp.write dir)) := by
    induction ds with
    | nil => rfl
    | cons d rest ih =>
      simp only [List.map_cons, List.flatMap_cons, ih]
      simp [WorkUnit.owed, List.range_eq_range']
  rw [this]

/-- What the fan-out satisfies on a pool of one worker: at most one unit is
in execution, what it holds is the current value of the counter, and the
counter plus the increments still to make is the final value. -/
structure OneWorkerInv (count : Nat) (target : Int) (s : FanOut) : Prop where
  single : s.running.length ≤ 1
  fresh : ∀ u ∈ s.queue, u.held = none
  held : ∀ u ∈ s.running, u.held = none ∨ (u.held = some s.files ∧ u.next < count)
  total : ∃ y : Int, s.files = wrapInt32 y
    ∧ y + (((s.running ++ s.queue).map (WorkUnit.todo count)).sum : Nat) = target

theorem oneWorkerInv_act (count : Nat) (target : Int) (a : FanAction) (s : FanOut)
    (hinv : OneWorkerInv count target s) : OneWorkerInv count target (s.act 1 count a) := by
  obtain ⟨hsingle, hfresh, hheld, y, hy, htotal⟩ := hinv
  cases a with
  | dequeue =>
    simp only [FanOut.act]
    split
    · exact ⟨hsingle, hfresh, hheld, y, hy, htotal⟩
    · rename_i u rest hq
      split
      · rename_i hlt
        have hnil : s.running = [] := by
          apply List.length_eq_zero.1
          have : ((1 : ℕ+) : Nat) = 1 := rfl
          omega
        rw [hq] at hfresh htotal
        refine ⟨?_, ?_, ?_, y, hy, ?_⟩
        · simp [hnil]
        · intro v hv
          exact hfresh v (List.mem_cons_of_mem _ hv)
        · intro v hv
          simp only [hnil, List.nil_append, List.mem_singleton] at hv
          subst hv
          exact Or.inl (hfresh v (List.mem_cons_self _ _))
        · simpa [hnil] using htotal
      · exact ⟨hsingle, hfresh, hheld, y, hy, htotal⟩
  | step k =>
    simp only [FanOut.act]
    split
    · exact ⟨hsingle, hfresh, hheld, y, hy, htotal⟩
    · rename_i u hk
      have hone : s.running = [u] := by
        obtain ⟨pre, post, hl, _⟩ := getElem?_split _ _ _ hk
        rw [hl] at hsingle
        simp only [List.length_append, List.length_cons] at hsingle
        have hpre : pre = [] := List.length_eq_zero.1 (by omega)
        have hpost : post = [] := List.length_eq_zero.1 (by omega)
        rw [hl, hpre, hpost]
        rfl
      have hk0 : k = 0 := by
        rw [hone] at hk
        cases k with
        | zero => rfl
        | succ k => simp at hk
      subst hk0
      have hu := hheld u (by rw [hone]; exact List.mem_singleton_self u)
      rw [hone] at htotal
      split
      · rename_i v hv
        rcases hu with hnone | ⟨hsome, hlt⟩
        · rw [hnone] at hv
          cases hv
        · rw [hsome] at hv
          have hvf : v = s.files := (Option.some.inj hv).symm
          refine ⟨?_, hfresh, ?_, y + 1, ?_, ?_⟩
          · simp [hone]
          · intro w hw
            simp only [hone, List.set_cons_zero, List.mem_singleton] at hw
            subst hw
            exact Or.inl rfl
          · simp only []
            rw [hvf, hy, wrapInt32_add_left]
          · simp only [hone, List.set_cons_zero, List.singleton_append, List.map_cons,
              List.sum_cons, WorkUnit.todo] at htotal ⊢
            rw [← htotal]
            push_cast
            omega
      · rename_i hv
        split
        · rename_i hlt
          refine ⟨?_, hfresh, ?_, y, hy, ?_⟩
          · simp [hone]
          · intro w hw
            simp only [hone, List.set_cons_zero, List.mem_singleton] at hw
            subst hw
            exact Or.inr ⟨rfl, hlt⟩
          · simpa [hone, WorkUnit.todo] using htotal
        · rename_i hge
          refine ⟨?_, hfresh, ?_, y, hy, ?_⟩
          · simp [hone]
          · intro w hw
            simp [hone] at hw
          · have h0 : count - u.next = 0 := by omega
            simpa [hone, WorkUnit.todo, h0] using htotal

theorem oneWorkerInv_foldl (count : Nat) (target : Int) :
    ∀ (sched : List FanAction) (s : FanOut), OneWorkerInv count target s →
      OneWorkerInv count target (sched.foldl (fun s a => FanOut.act 1 count a s) s) := by
  intro sched
  induction sched with
  | nil => intro s h; exact h
  | cons a rest ih =>
    intro s h
    rw [List.foldl_cons]
    exact ih _ (oneWorkerInv_act count target a s h)

theorem oneWorkerInv_drain (count : Nat) (target : Int) (s : FanOut)
    (hinv : OneWorkerInv count target s) : (s.drain count).1 = wrapInt32 target := by
  obtain ⟨hsingle, hfresh, hheld, y, hy, htotal⟩ := hinv
  unfold FanOut.drain
  rw [hy]
  cases hr : s.running with
  | nil =>
    rw [hr] at htotal
    rw [List.nil_append, foldl_finish_count count _ _ _ hfresh]
    simp only [List.nil_append] at htotal
    rw [htotal]
  | cons u rest =>
    have hrest : rest = [] := by
      rw [hr] at hsingle
      simp only [List.length_cons] at hsingle
      exact List.length_eq_zero.1 (by omega)
    subst hrest
    have hu := hheld u (by rw [hr]; exact List.mem_singleton_self u)
    rw [hy] at hu
    rw [hr] at htotal
    simp only [List.singleton_append, List.foldl_cons]
    have h1 := finish_count count u y s.trace hu
    have h2 : u.finish count (wrapInt32 y, s.trace)
        = (wrapInt32 (y + u.todo count), (u.finish count (wrapInt32 y, s.trace)).2) := by
      rw [← h1]
    rw [h2, foldl_finish_count count _ _ _ hfresh]
    congr 1
    simp only [List.singleton_append, List.map_cons, List.sum_cons] at htotal
    rw [← htotal]
    push_cast
    ring

/-- On a pool of one worker the work units run one after another whatever
the schedule, and every file written is counted. -/
theorem runFileTasks_one_worker (sched : List FanAction) (ds : List Path) (count : Nat)
    (d x : Int) (t : List FsOp) :
    (runFileTasks 1 sched ds count ⟨d, wrapInt32 x, t⟩).files
      = wrapInt32 (x + ds.length * count) := by
  simp only [runFileTasks]
  apply oneWorkerInv_drain count
  apply oneWorkerInv_foldl
  refine ⟨by simp, ?_, ?_, x, rfl, ?_⟩
  · intro u hu
    simp only [List.mem_map] at hu
    obtain ⟨_, _, rfl⟩ := hu
    rfl
  · intro u hu
    simp at hu
  · simp only [List.nil_append, List.map_map]
    have : (ds.map (WorkUnit.todo count
        ∘ fun dir => ({ dir := dir, next := 0, held := none } : WorkUnit))).sum
        = ds.length * count := by
      induction ds with
      | nil => simp
      | cons a rest ih =>
        simp only [List.map_cons, List.sum_cons, ih, List.length_cons, Function.comp,
          WorkUnit.todo, Nat.sub_zero]
        ring
    rw [this]
    push_cast
    ring

/-! ### The closed forms as sums over the levels -/

theorem dirsBelow_eq_range (n k : Nat) : dirsBelow n k = ∑ i ∈ Finset.range k, n ^ (i + 1) := by
  induction k with
  | zero => simp [dirsBelow]
  | succ k ih =>
    rw [dirsBelow, ih, Finset.sum_range_succ', Finset.mul_sum]
    have h : ∀ i ∈ Finset.range k, n * n ^ (i + 1) = n ^ (i + 1 + 1) := by
      intro i _
      ring
    rw [Finset.sum_congr rfl h]
    simp [add_comm]

theorem filesBelow_eq_range (n : Nat) (f : Nat → Nat) (k L : Nat) :
    filesBelow n f k L = ∑ i ∈ Finset.range k, n ^ (i + 1) * f (L + i) := by
  induction k generalizing L with
  | zero => simp [filesBelow]
  | succ k ih =>
    rw [filesBelow, ih, Finset.sum_range_succ', Finset.mul_sum]
    have h : ∀ i ∈ Finset.range k,
        n * (n ^ (i + 1) * f (L + 1 + i)) = n ^ (i + 1 + 1) * f (L + (i + 1)) := by
      intro i _
      have : L + 1 + i = L + (i + 1) := by omega
      rw [this]
      ring
    rw [Finset.sum_congr rfl h]
    simp [add_comm]

theorem sum_Icc_one_eq_range (g : Nat → Nat) (k : Nat) :
    ∑ i ∈ Finset.Icc 1 k, g i = ∑ i ∈ Finset.range k, g (i + 1) := by
  rw [← Nat.Ico_succ_right, Finset.sum_Ico_eq_sum_range]
  simp [add_comm]

theorem dirsBelow_eq_sum (n k : Nat) : dirsBelow n k = ∑ i ∈ Finset.Icc 1 k, n ^ i := by
  rw [dirsBelow_eq_range, sum_Icc_one_eq_range]

theorem filesBelow_eq_sum (n : Nat) (f : Nat → Nat) (k : Nat) :
    filesBelow n f k 1 = ∑ l ∈ Finset.Icc 1 k, n ^ l * f l := by
  rw [filesBelow_eq_range, sum_Icc_one_eq_range]
  simp [add_comm]

theorem le_dirsBelow (n k : Nat) (hn : 1 ≤ n) : k ≤ dirsBelow n k := by
  induction k with
  | zero => simp
  | succ k ih =>
    rw [dirsBelow]
    have : dirsBelow n k ≤ n * dirsBelow n k := Nat.le_mul_of_pos_left _ hn
    omega

theorem dirsBelow_zero_branching (k : Nat) : dirsBelow 0 k = 0 := by
  cases k <;> simp [dirsBelow]

theorem filesBelow_zero_branching (f : Nat → Nat) (k L : Nat) : filesBelow 0 f k L = 0 := by
  cases k <;> simp [filesBelow]

/-! ### The operations of a failure-free run -/

theorem mem_directoriesToCreate (parentDir : Path) (n L : Nat) (d : Path) :
    d ∈ directoriesToCreate parentDir n L ↔ ∃ i, i < n ∧ d = parentDir ++ [(L, i)] := by
  simp only [directoriesToCreate, List.mem_map, List.mem_range]
  constructor
  · rintro ⟨i, hi, rfl⟩
    exact ⟨i, hi, rfl⟩
  · rintro ⟨i, hi, rfl⟩
    exact ⟨i, hi, rfl⟩

theorem nodup_directoriesToCreate (parentDir : Path) (n L : Nat) :
    (directoriesToCreate parentDir n L).Nodup := by
  unfold directoriesToCreate
  refine List.Nodup.map ?_ (List.nodup_range n)
  intro a b h
  have h2 := List.append_cancel_left h
  simpa using h2

theorem length_of_mem_directoriesToCreate (parentDir : Path) (n L : Nat) (d : Path)
    (h : d ∈ directoriesToCreate parentDir n L) : d.length = parentDir.length + 1 := by
  obtain ⟨i, _, rfl⟩ := (mem_directoriesToCreate _ _ _ _).1 h
  simp

theorem expectedTrace_path (n : Nat) (f : Nat → Nat) (k : Nat) :
    ∀ (parentDir : Path) (L : Nat) (op : FsOp), op ∈ expectedTrace n f k parentDir L →
      ∃ q, q ≠ [] ∧ op.path = parentDir ++ q := by
  induction k with
  | zero =>
    intro parentDir L op h
    simp [expectedTrace] at h
  | succ k ih =>
    intro parentDir L op h
    simp only [expectedTrace, List.mem_append, List.mem_map, List.mem_flatMap] at h
    rcases h with (⟨d, hd, rfl⟩ | ⟨d, hd, j, _, rfl⟩) | ⟨d, hd, hop⟩
    · obtain ⟨i, _, rfl⟩ := (mem_directoriesToCreate _ _ _ _).1 hd
      exact ⟨[(L, i)], by simp, rfl⟩
    · obtain ⟨i, _, rfl⟩ := (mem_directoriesToCreate _ _ _ _).1 hd
      exact ⟨[(L, i)], by simp, rfl⟩
    · obtain ⟨i, _, rfl⟩ := (mem_directoriesToCreate _ _ _ _).1 hd
      obtain ⟨q, _, hq⟩ := ih _ _ _ hop
      exact ⟨(L, i) :: q, by simp, by rw [hq]; simp⟩

theorem count_flatMap_of_unique {α β : Type} [DecidableEq β] (g : α → List β) (x : β)
    (ds : List α) (d : α) (hnd : ds.Nodup) (hd : d ∈ ds)
    (hother : ∀ e ∈ ds, e ≠ d → x ∉ g e) :
    (ds.flatMap g).count x = (g d).count x := by
  induction ds with
  | nil => simp at hd
  | cons a rest ih =>
    rw [List.flatMap_cons, List.count_append]
    rw [List.nodup_cons] at hnd
    rcases List.mem_cons.1 hd with rfl | hmem
    · have hz : (rest.flatMap g).count x = 0 := by
        rw [List.count_eq_zero]
        intro hx
        obtain ⟨e, he, hxe⟩ := List.mem_flatMap.1 hx
        have hne : e ≠ d := by
          rintro rfl
          exact hnd.1 he
        exact hother e (List.mem_cons_of_mem _ he) hne hxe
      omega
    · have hne : a ≠ d := by
        rintro rfl
        exact hnd.1 hmem
      have hz : (g a).count x = 0 :=
        List.count_eq_zero.2 (hother a (List.mem_cons_self _ _) hne)
      rw [hz, ih hnd.2 hmem (fun e he => hother e (List.mem_cons_of_mem _ he))]
      omega

theorem count_write_range (p : Path) (j m : Nat) :
    ((List.range m).map (FsOp.write p)).count (FsOp.write p j) = if j < m then 1 else 0 := by
  induction m with
  | zero => simp
  | succ m ih =>
    rw [List.range_succ, List.map_append, List.count_append, ih]
    have hs : ([FsOp.write p m] : List FsOp).count (FsOp.write p j) = if j = m then 1 else 0 := by
      by_cases h : j = m
      · subst h
        simp
      · have h3 : ¬ (FsOp.write p m = FsOp.write p j) := by
          intro hx
          injection hx with _ hx
          exact h hx.symm
        rw [List.count_singleton]
        simp [h, h3]
    rw [List.map_cons, List.map_nil, hs]
    by_cases h1 : j < m
    · have h2 : j < m + 1 := by omega
      have h3 : ¬ (j = m) := by omega
      simp [h1, h2, h3]
    · by_cases h4 : j = m
      · subst h4
        simp
      · have h2 : ¬ j < m + 1 := by omega
        simp [h1, h2, h4]

/-- In a failure-free run every created directory receives each of its
`f level` files exactly once, and nothing else. -/
theorem expectedTrace_count_write (n : Nat) (f : Nat → Nat) (k : Nat) :
    ∀ (parentDir : Path) (L : Nat) (p : Path) (j : Nat),
      FsOp.mkdir p ∈ expectedTrace n f k parentDir L →
      (expectedTrace n f k parentDir L).count (FsOp.write p j)
        = if j < f (L + (p.length - parentDir.length - 1)) then 1 else 0 := by
  induction k with
  | zero =>
    intro parentDir L p j h
    simp [expectedTrace] at h
  | succ k ih =>
    intro parentDir L p j h
    simp only [expectedTrace, List.mem_append, List.mem_map, List.mem_flatMap] at h
    simp only [expectedTrace, List.count_append]
    have hA : ((directoriesToCreate parentDir n L).map FsOp.mkdir).count (FsOp.write p j) = 0 := by
      rw [List.count_eq_zero]
      simp
    rw [hA]
    rcases h with (⟨d, hd, hdp⟩ | ⟨d, _, i, _, hi⟩) | ⟨d, hd, hop⟩
    · -- `p` is a directory of this level
      have hpd : d = p := by injection hdp
      subst hpd
      have hlen := length_of_mem_directoriesToCreate _ _ _ _ hd
      have hB := count_flatMap_of_unique
        (fun dir => (List.range (f L)).map (FsOp.write dir)) (FsOp.write d j)
        _ d (nodup_directoriesToCreate parentDir n L) hd
        (by
          intro e _ hne hx
          simp only [List.mem_map] at hx
          obtain ⟨_, _, hx⟩ := hx
          injection hx with h1 _
          exact hne h1)
      have hC : ((directoriesToCreate parentDir n L).flatMap
          (fun dir => expectedTrace n f k dir (L + 1))).count (FsOp.write d j) = 0 := by
        rw [List.count_eq_zero]
        intro hx
        obtain ⟨e, he, hxe⟩ := List.mem_flatMap.1 hx
        obtain ⟨q, hq, hpath⟩ := expectedTrace_path n f k _ _ _ hxe
        have hlen2 := length_of_mem_directoriesToCreate _ _ _ _ he
        have hql : 0 < q.length := List.length_pos.2 hq
        have := congrArg List.length hpath
        simp only [FsOp.path, List.length_append] at this
        omega
      rw [hB, hC, count_write_range]
      have hz : d.length - parentDir.length - 1 = 0 := by omega
      simp [hz]
    · exact absurd hi (by simp)
    · -- `p` lies below the directory `d` of this level
      obtain ⟨q, hq, hpath⟩ := expectedTrace_path n f k _ _ _ hop
      simp only [FsOp.path] at hpath
      have hlen := length_of_mem_directoriesToCreate _ _ _ _ hd
      have hql : 0 < q.length := List.length_pos.2 hq
      have hplen : p.length = d.length + q.length := by rw [hpath]; simp
      have hB : ((directoriesToCreate parentDir n L).flatMap
          (fun dir => (List.range (f L)).map (FsOp.write dir))).count (FsOp.write p j) = 0 := by
        rw [List.count_eq_zero]
        intro hx
        obtain ⟨e, he, hxe⟩ := List.mem_flatMap.1 hx
        simp only [List.mem_map] at hxe
        obtain ⟨_, _, hxe⟩ := hxe
        injection hxe with h1 _
        have hlen2 := length_of_mem_directoriesToCreate _ _ _ _ he
        rw [h1] at hlen2
        omega
      have hC := count_flatMap_of_unique
        (fun dir => expectedTrace n f k dir (L + 1)) (FsOp.write p j)
        _ d (nodup_directoriesToCreate parentDir n L) hd
        (by
          intro e he hne hx
          obtain ⟨q2, _, hpath2⟩ := expectedTrace_path n f k _ _ _ hx
          simp only [FsOp.path] at hpath2
          have hlen2 := length_of_mem_directoriesToCreate _ _ _ _ he
          have hpp : e ++ q2 = d ++ q := by rw [← hpath2, ← hpath]
          exact hne (List.append_inj_left hpp (by omega)))
      rw [hB, hC, ih d (L + 1) p j hop]
      have hidx : L + 1 + (p.length - d.length - 1) = L + (p.length - parentDir.length - 1) := by
        omega
      rw [hidx]
      simp

theorem countP_flatMap_const {α β : Type} (p : β → Bool) (g : α → List β) (c : Nat)
    (ds : List α) (h : ∀ d ∈ ds, (g d).countP p = c) :
    (ds.flatMap g).countP p = ds.length * c := by
  induction ds with
  | nil => simp
  | cons d rest ih =>
    rw [List.flatMap_cons, List.countP_append, h d (List.mem_cons_self _ _),
      ih (fun e he => h e (List.mem_cons_of_mem _ he)), List.length_cons]
    ring

/-- A failure-free run writes as many files as the per-level total. -/
theorem expectedTrace_countP_write (n : Nat) (f : Nat → Nat) (k : Nat) :
    ∀ (parentDir : Path) (L : Nat),
      (expectedTrace n f k parentDir L).countP FsOp.isWrite = filesBelow n f k L := by
  induction k with
  | zero =>
    intro parentDir L
    simp [expectedTrace, filesBelow]
  | succ k ih =>
    intro parentDir L
    simp only [expectedTrace, filesBelow, List.countP_append]
    have hA : ((directoriesToCreate parentDir n L).map FsOp.mkdir).countP FsOp.isWrite = 0 := by
      rw [List.countP_eq_zero]
      intro op hop
      obtain ⟨_, _, rfl⟩ := List.mem_map.1 hop
      simp [FsOp.isWrite]
    have hB := countP_flatMap_const FsOp.isWrite
      (fun dir => (List.range (f L)).map (FsOp.write dir)) (f L)
      (directoriesToCreate parentDir n L)
      (by
        intro d _
        rw [List.countP_eq_length.2]
        · simp
        · intro op hop
          obtain ⟨_, _, rfl⟩ := List.mem_map.1 hop
          rfl)
    have hC := countP_flatMap_const FsOp.isWrite
      (fun dir => expectedTrace n f k dir (L + 1)) (filesBelow n f k (L + 1))
      (directoriesToCreate parentDir n L) (fun d _ => ih d (L + 1))
    rw [hA, hB, hC, length_directoriesToCreate]
    ring

theorem expectedTrace_zero_branching (f : Nat → Nat) (k : Nat) (parentDir : Path) (L : Nat) :
    expectedTrace 0 f k parentDir L = [] := by
  cases k <;> simp [expectedTrace, directoriesToCreate]

/-! ### The recursion of `createData` without failures -/

/-- What a failure-free call returns: the wrapped directory count `a`, the
operations `T` in some order, and, when `one` holds (a pool of one worker),
the wrapped file count `b`. -/
structure RunOk (one : Prop) (a b : Int) (T : List FsOp) (r : GenResult) : Prop where
  dirs : r.dirs = wrapInt32 a
  trace : r.trace.Perm T
  files : one → r.files = wrapInt32 b

theorem recurse_foldlM_ok (one : Prop) (g : Path → Option GenResult) (a b : Int)
    (T : Path → List FsOp) (ds : List Path)
    (hg : ∀ dir ∈ ds, ∃ sub, g dir = some sub ∧ RunOk one a b (T dir) sub) :
    ∀ (x y : Int) (t : List FsOp) (acc : GenResult), RunOk one x y t acc →
      ∃ r, ds.foldlM
            (fun acc dir => (g dir).map
              (fun sub => ({ dirs := wrapInt32 (acc.dirs + sub.dirs),
                             files := wrapInt32 (acc.files + sub.files),
                             trace := acc.trace ++ sub.trace } : GenResult)))
            acc = some r
        ∧ RunOk one (x + ds.length * a) (y + ds.length * b) (t ++ ds.flatMap T) r := by
  induction ds with
  | nil =>
    intro x y t acc hacc
    refine ⟨acc, rfl, ?_, ?_, ?_⟩
    · simpa using hacc.dirs
    · simpa using hacc.trace
    · simpa using hacc.files
  | cons dir rest ih =>
    intro x y t acc hacc
    obtain ⟨sub, hsub, hok⟩ := hg dir (List.mem_cons_self _ _)
    rw [List.foldlM_cons, hsub]
    simp only [Option.map_some', Option.bind_eq_bind, Option.some_bind]
    obtain ⟨r, hr, hrok⟩ := ih (fun d hd => hg d (List.mem_cons_of_mem _ hd))
      (x + a) (y + b) (t ++ T dir)
      { dirs := wrapInt32 (acc.dirs + sub.dirs), files := wrapInt32 (acc.files + sub.files),
        trace := acc.trace ++ sub.trace }
      ⟨by simp only []; rw [hacc.dirs, hok.dirs, wrapInt32_add_left, wrapInt32_add_right],
       List.Perm.append hacc.trace hok.trace,
       fun h => by
         simp only []
         rw [hacc.files h, hok.files h, wrapInt32_add_left, wrapInt32_add_right]⟩
    refine ⟨r, hr, ?_, ?_, ?_⟩
    · rw [hrok.dirs]
      congr 1
      simp only [List.length_cons]
      push_cast
      ring
    · simpa [List.flatMap_cons, List.append_assoc] using hrok.trace
    · intro h
      rw [hrok.files h]
      congr 1
      simp only [List.length_cons]
      push_cast
      ring

/-- With no failing directory creation and a level counter that cannot wrap,
`createData` returns, for every pool size and every schedule and every fuel
above the number of remaining levels: the wrapped closed form for the
directories, the expected operations in some order, and on a pool of one
worker the wrapped closed form for the files. -/
theorem createData_fsOk (threads : ℕ+) (sched : Path → List FanAction)
    (numLevels n fpd sz tl nft : Nat) (hlev : numLevels + 1 < 18446744073709551616) :
    ∀ (k fuel : Nat) (parentDir : Path) (L : Nat), k < fuel → L + k = numLevels + 1 →
      ∃ r, createData fsOk threads sched fuel parentDir numLevels n fpd sz L tl nft = some r
        ∧ RunOk (threads = 1) (dirsBelow n k)
            (filesBelow n (fun l => filesToCreate fpd l tl nft) k L)
            (expectedTrace n (fun l => filesToCreate fpd l tl nft) k parentDir L) r := by
  intro k
  induction k with
  | zero =>
    intro fuel parentDir L hf hL
    obtain ⟨fuel, rfl⟩ : ∃ m, fuel = m + 1 := ⟨fuel - 1, by omega⟩
    have hgt : L > numLevels := by omega
    refine ⟨⟨0, 0, []⟩, by simp [createData, hgt], ?_, ?_, ?_⟩
    · simp [dirsBelow, wrapInt32_zero]
    · simp [expectedTrace]
    · intro _
      simp [filesBelow, wrapInt32_zero]
  | succ k ih =>
    intro fuel parentDir L hf hL
    obtain ⟨fuel, rfl⟩ : ∃ m, fuel = m + 1 := ⟨fuel - 1, by omega⟩
    have hle : ¬ L > numLevels := by omega
    have hw : wrapSize (L + 1) = L + 1 := by
      unfold wrapSize
      exact Nat.mod_eq_of_lt (by omega)
    have h0 : (⟨0, 0, []⟩ : GenResult) = ⟨wrapInt32 0, wrapInt32 0, []⟩ := by
      rw [wrapInt32_zero]
    simp only [createData, hle, if_false]
    rw [h0, createDirectories_fsOk]
    simp only []
    rw [hw]
    have hfan := runFileTasks_trace threads (sched parentDir) (directoriesToCreate parentDir n L)
      (filesToCreate fpd L tl nft)
      ⟨wrapInt32 (0 + (directoriesToCreate parentDir n L).length), wrapInt32 0,
        [] ++ (directoriesToCreate parentDir n L).map FsOp.mkdir⟩
    obtain ⟨r, hr, hrok⟩ := recurse_foldlM_ok (threads = 1)
      (fun dir => createData fsOk threads sched fuel dir numLevels n fpd sz (L + 1) tl nft)
      (dirsBelow n k) (filesBelow n (fun l => filesToCreate fpd l tl nft) k (L + 1))
      (fun dir => expectedTrace n (fun l => filesToCreate fpd l tl nft) k dir (L + 1))
      (directoriesToCreate parentDir n L)
      (fun dir _ => ih fuel dir (L + 1) (by omega) (by omega))
      (0 + (directoriesToCreate parentDir n L).length)
      (0 + (directoriesToCreate parentDir n L).length * filesToCreate fpd L tl nft)
      (([] ++ (directoriesToCreate parentDir n L).map FsOp.mkdir)
        ++ (directoriesToCreate parentDir n L).flatMap
            (fun dir => (List.range (filesToCreate fpd L tl nft)).map (FsOp.write dir)))
      _ ⟨hfan.1, hfan.2, fun h => by subst h; exact runFileTasks_one_worker _ _ _ _ _ _⟩
    refine ⟨r, hr, ?_, ?_, ?_⟩
    · rw [hrok.dirs]
      congr 1
      simp only [length_directoriesToCreate, dirsBelow]
      push_cast
      ring
    · simpa [expectedTrace] using hrok.trace
    · intro h
      rw [hrok.files h]
      congr 1
      simp only [length_directoriesToCreate, filesBelow]
      push_cast
      ring

theorem runFileTasks_nil (threads : ℕ+) (sched : List FanAction) (count : Nat) (r : GenResult) :
    runFileTasks threads sched [] count r = r := by
  have h : ∀ (l : List FanAction) (s : FanOut), s.queue = [] → s.running = [] →
      l.foldl (fun s a => FanOut.act threads count a s) s = s := by
    intro l
    induction l with
    | nil => intro s _ _; rfl
    | cons a rest ih =>
      intro s hq hr
      rw [List.foldl_cons]
      have : s.act threads count a = s := by
        cases a <;> simp [FanOut.act, hq, hr]
      rw [this]
      exact ih s hq hr
  simp only [runFileTasks, List.map_nil]
  rw [h _ _ rfl rfl]
  simp [FanOut.drain]

/-- With no directory to create per level, the first call returns at once. -/
theorem createData_zero_branching (fsFail : Path → Bool) (threads : ℕ+)
    (sched : Path → List FanAction) (fuel : Nat) (parentDir : Path)
    (numLevels fpd sz L tl nft : Nat) :
    createData fsFail threads sched (fuel + 1) parentDir numLevels 0 fpd sz L tl nft
      = some ⟨0, 0, []⟩ := by
  by_cases h : L > numLevels
  · simp [createData, h]
  · simp [createData, h, directoriesToCreate, createDirectories, runFileTasks_nil]

/-- A failure-free run started at level 1, as soon as it terminates: the
wrapped directory total, the expected operations in some order, and on a
pool of one worker the wrapped file total. -/
theorem createData_counts (threads : ℕ+) (sched : Path → List FanAction)
    (numLevels n fpd sz tl nft fuel : Nat) (parentDir : Path)
    (hfuel : numLevels < fuel) (hterm : n = 0 ∨ numLevels + 1 < 18446744073709551616) :
    ∃ r, createData fsOk threads sched fuel parentDir numLevels n fpd sz 1 tl nft = some r
      ∧ r.dirs = wrapInt32 ((∑ i ∈ Finset.Icc 1 numLevels, n ^ i : Nat) : Int)
      ∧ r.trace.Perm
          (expectedTrace n (fun l => filesToCreate fpd l tl nft) numLevels parentDir 1)
      ∧ (threads = 1 → r.files = wrapInt32
          ((∑ l ∈ Finset.Icc 1 numLevels, n ^ l * filesToCreate fpd l tl nft : Nat) : Int)) := by
  rw [← dirsBelow_eq_sum, ← filesBelow_eq_sum n (fun l => filesToCreate fpd l tl nft)]
  rcases hterm with h0 | hlev
  · subst h0
    obtain ⟨fuel, rfl⟩ : ∃ m, fuel = m + 1 := ⟨fuel - 1, by omega⟩
    refine ⟨_, createData_zero_branching _ _ _ _ _ _ _ _ _ _ _, ?_, ?_, ?_⟩
    · simp [dirsBelow_zero_branching, wrapInt32_zero]
    · simp [expectedTrace_zero_branching]
    · intro _
      simp [filesBelow_zero_branching, wrapInt32_zero]
  · obtain ⟨r, hr, hok⟩ := createData_fsOk threads sched numLevels n fpd sz tl nft hlev
      numLevels fuel parentDir 1 hfuel (by omega)
    exact ⟨r, hr, hok.dirs, hok.trace, hok.files⟩

/-! ### A failing directory creation -/

theorem createDirectories_fail (fsFail : Path → Bool) (pre : List Path) (d : Path)
    (post : List Path) (hpre : ∀ e ∈ pre, fsFail e = false) (hd : fsFail d = true)
    (x fl : Int) (t : List FsOp) :
    createDirectories fsFail (pre ++ d :: post) ⟨wrapInt32 x, fl, t⟩
      = (⟨wrapInt32 (x + pre.length), fl, t ++ pre.map FsOp.mkdir⟩, true) := by
  induction pre generalizing x t with
  | nil => simp [createDirectories, hd]
  | cons e rest ih =>
    have he : fsFail e = false := hpre e (List.mem_cons_self _ _)
    rw [List.cons_append]
    simp only [createDirectories, he, Bool.false_eq_true, if_false]
    rw [wrapInt32_add_left, ih (fun a ha => hpre a (List.mem_cons_of_mem _ ha))]
    simp only [List.length_cons, List.map_cons, List.append_assoc, List.singleton_append]
    congr 3
    push_cast
    ring

theorem directoriesToCreate_split (parentDir : Path) (n L i : Nat) (hi : i < n) :
    ∃ post, directoriesToCreate parentDir n L
      = directoriesToCreate parentDir i L ++ (parentDir ++ [(L, i)]) :: post := by
  obtain ⟨m, rfl⟩ : ∃ m, n = i + (m + 1) := ⟨n - i - 1, by omega⟩
  refine ⟨((List.range m).map (fun a => i + (a + 1))).map
    (fun a => parentDir ++ [(L, a)]), ?_⟩
  unfold directoriesToCreate
  rw [List.range_add, List.map_append, List.range_succ_eq_map]
  simp [Function.comp_def]

/-! ### Results on the tree generator -/

/-- C1: with no filesystem failure, `createData` started at level 1 returns
(for every pool, every schedule of the work units and every fuel above
`numLevels`, whatever the other shape parameters) a directory count equal to
the sum over `i = 1..numLevels` of `numDirsPerLevel ^ i`, provided that sum
fits in `int`. -/
theorem createData_dirs_closed_form
    (numLevels numDirsPerLevel numFilesPerDir fileSizeKB targetLevel numFilesAtTargetLevel : Nat)
    (threads : ℕ+) (sched : Path → List FanAction)
    (fuel : Nat) (parentDir : Path) (hfuel : numLevels < fuel)
    (hfit : ∑ i ∈ Finset.Icc 1 numLevels, numDirsPerLevel ^ i < 2147483648) :
    ∃ r, createData fsOk threads sched fuel parentDir numLevels numDirsPerLevel numFilesPerDir
          fileSizeKB 1 targetLevel numFilesAtTargetLevel = some r
      ∧ r.dirs = ((∑ i ∈ Finset.Icc 1 numLevels, numDirsPerLevel ^ i : Nat) : Int) := by
  have hterm : numDirsPerLevel = 0 ∨ numLevels + 1 < 18446744073709551616 := by
    rcases Nat.eq_zero_or_pos numDirsPerLevel with h | h
    · exact Or.inl h
    · right
      have := le_dirsBelow numDirsPerLevel numLevels h
      rw [dirsBelow_eq_sum] at this
      omega
  obtain ⟨r, hr, hd, _⟩ := createData_counts threads sched numLevels numDirsPerLevel
    numFilesPerDir fileSizeKB targetLevel numFilesAtTargetLevel fuel parentDir hfuel hterm
  exact ⟨r, hr, by rw [hd, wrapInt32_natCast_of_lt _ hfit]⟩

/-- C1, at `numLevels = 2`, `numDirsPerLevel = 2`, on two workers whose units
overlap: six directories. -/
theorem createData_dirs_closed_form_witness :
    ∃ r, createData fsOk 2
          (fun _ => [FanAction.dequeue, FanAction.dequeue, FanAction.step 0, FanAction.step 1])
          3 [] 2 2 1 1 1 2 3 = some r ∧ r.dirs = 6 := by
  obtain ⟨r, hr, hd⟩ := createData_dirs_closed_form 2 2 1 1 2 3 2
    (fun _ => [FanAction.dequeue, FanAction.dequeue, FanAction.step 0, FanAction.step 1])
    3 [] (by decide) (by decide)
  exact ⟨r, hr, by rw [hd]; decide⟩

/-- C2 (as stated, refuted): the returned file count is not always the sum.
One level, one directory, `2^31` files in it, one worker: the `int` comes
back as `-2^31`. And one level, two directories, one file each, two workers
whose two units both read the counter before either writes it back: two
files are written and 1 is returned. -/
theorem createData_files_not_the_sum :
    (∃ r, createData fsOk 1 noSchedule 2 [] 1 1 2147483648 0 1 0 0 = some r
        ∧ r.files = -2147483648
        ∧ r.files ≠ ((∑ l ∈ Finset.Icc 1 1,
            1 ^ l * (if l = 0 then 0 else 2147483648) : Nat) : Int))
      ∧ (∃ r, createData fsOk 2
            (fun _ => [FanAction.dequeue, FanAction.dequeue, FanAction.step 0, FanAction.step 1,
              FanAction.step 0, FanAction.step 1])
            2 [] 1 2 1 0 1 0 0 = some r
          ∧ r.trace.countP FsOp.isWrite = 2 ∧ r.files = 1
          ∧ r.files ≠ ((∑ l ∈ Finset.Icc 1 1,
              2 ^ l * (if l = 0 then 0 else 1) : Nat) : Int)) := by
  constructor
  · obtain ⟨r, hr, _, _, hf⟩ := createData_counts 1 noSchedule 1 1 2147483648 0 0 0 2 []
      (by decide) (Or.inr (by decide))
    have hf := hf rfl
    have hs : (∑ l ∈ Finset.Icc 1 1, 1 ^ l * filesToCreate 2147483648 l 0 0 : Nat)
        = 2147483648 := by
      simp [filesToCreate]
    rw [hs] at hf
    have hw : wrapInt32 ((2147483648 : Nat) : Int) = -2147483648 := by decide
    rw [hw] at hf
    refine ⟨r, hr, hf, ?_⟩
    rw [hf]
    simp
  · refine ⟨_, rfl, ?_, ?_, ?_⟩ <;> decide

/-- C2 (amended): with no filesystem failure and `numLevels` below `SIZE_MAX`,
`createData` started at level 1 writes, for every pool and every schedule of
the work units, into every directory it creates, at level `L`, exactly the
files `file_0 .. file_(c-1)` with `c = numFilesAtTargetLevel` if
`L = targetLevel` and `c = numFilesPerDir` otherwise, each once; and on a
pool of one worker the file count it returns is the sum over
`L = 1..numLevels` of `numDirsPerLevel ^ L * c`, provided that sum fits in
`int`. -/
theorem createData_files_per_level
    (numLevels numDirsPerLevel numFilesPerDir fileSizeKB targetLevel numFilesAtTargetLevel : Nat)
    (threads : ℕ+) (sched : Path → List FanAction)
    (fuel : Nat) (parentDir : Path) (hfuel : numLevels < fuel)
    (hlev : numLevels < 18446744073709551615) :
    ∃ r, createData fsOk threads sched fuel parentDir numLevels numDirsPerLevel numFilesPerDir
          fileSizeKB 1 targetLevel numFilesAtTargetLevel = some r
      ∧ (∀ p, FsOp.mkdir p ∈ r.trace → ∀ j, r.trace.count (FsOp.write p j)
          = if j < (if p.length - parentDir.length = targetLevel then numFilesAtTargetLevel
                    else numFilesPerDir) then 1 else 0)
      ∧ (threads = 1 →
          ∑ l ∈ Finset.Icc 1 numLevels, numDirsPerLevel ^ l
            * (if l = targetLevel then numFilesAtTargetLevel else numFilesPerDir)
            < 2147483648 →
          r.files = ((∑ l ∈ Finset.Icc 1 numLevels, numDirsPerLevel ^ l
            * (if l = targetLevel then numFilesAtTargetLevel else numFilesPerDir) : Nat)
              : Int)) := by
  obtain ⟨r, hr, hok⟩ := createData_fsOk threads sched numLevels numDirsPerLevel numFilesPerDir
    fileSizeKB targetLevel numFilesAtTargetLevel (by omega) numLevels fuel parentDir 1 hfuel
    (by omega)
  refine ⟨r, hr, ?_, ?_⟩
  · intro p hp j
    have hp2 := (hok.trace.mem_iff).1 hp
    rw [hok.trace.count_eq, expectedTrace_count_write _ _ _ _ _ _ _ hp2]
    obtain ⟨q, hq, hpath⟩ := expectedTrace_path _ _ _ _ _ _ hp2
    have hql : 0 < q.length := List.length_pos.2 hq
    have hlen : p.length = parentDir.length + q.length := by
      have := congrArg List.length hpath
      simpa [FsOp.path] using this
    have hidx : 1 + (p.length - parentDir.length - 1) = p.length - parentDir.length := by omega
    rw [hidx]
    rfl
  · intro hone hfit
    rw [hok.files hone, filesBelow_eq_sum]
    exact wrapInt32_natCast_of_lt _ hfit

/-- C2 (amended), at two levels of two directories, one file per directory
and three at target level 2, on one worker and under the schedule that made
two workers lose an increment: fourteen files. -/
theorem createData_files_per_level_witness :
    ∃ r, createData fsOk 1
          (fun _ => [FanAction.dequeue, FanAction.dequeue, FanAction.step 0, FanAction.step 1,
            FanAction.step 0, FanAction.step 1])
          3 [] 2 2 1 1 1 2 3 = some r
      ∧ r.files = 14 ∧ r.trace.count (FsOp.write [(1, 0), (2, 1)] 2) = 1 := by
  obtain ⟨r, hr, hp, hf⟩ := createData_files_per_level 2 2 1 1 2 3 1
    (fun _ => [FanAction.dequeue, FanAction.dequeue, FanAction.step 0, FanAction.step 1,
      FanAction.step 0, FanAction.step 1])
    3 [] (by decide) (by decide)
  refine ⟨r, hr, by rw [hf rfl (by decide)]; decide, ?_⟩
  have hm : FsOp.mkdir [(1, 0), (2, 1)] ∈ r.trace := by
    have hd : (createData fsOk 1
        (fun _ => [FanAction.dequeue, FanAction.dequeue, FanAction.step 0, FanAction.step 1,
          FanAction.step 0, FanAction.step 1])
        3 [] 2 2 1 1 1 2 3).map
        (fun x => decide (FsOp.mkdir [(1, 0), (2, 1)] ∈ x.trace)) = some true := by decide
    rw [hr] at hd
    simpa using hd
  rw [hp _ hm 2]
  decide

/-- C3 (as stated, refuted): in the scenario of the specification, on one
worker, the run creates 6 directories and reports 14 files, not
`2^2 * 3 = 12`: 14 files are written, `file_0` of `dir_1_0` at level 1 among
them. -/
theorem createData_scenario_counts :
    ∃ r, createData fsOk 1 noSchedule 3 [] 2 2 1 1 1 2 3 = some r ∧ r.dirs = 6 ∧ r.files = 14
      ∧ r.files ≠ 2 ^ 2 * 3 ∧ r.trace.countP FsOp.isWrite = 14
      ∧ FsOp.write [(1, 0)] 0 ∈ r.trace := by
  refine ⟨_, rfl, ?_, ?_, ?_, ?_, ?_⟩ <;> decide

theorem sum_levels_split (numLevels n fpd tl nft : Nat) (h1 : 1 ≤ tl) (h2 : tl ≤ numLevels) :
    ∑ l ∈ Finset.Icc 1 numLevels, n ^ l * (if l = tl then nft else fpd)
      = n ^ tl * nft + fpd * ∑ l ∈ (Finset.Icc 1 numLevels).erase tl, n ^ l := by
  have hmem : tl ∈ Finset.Icc 1 numLevels := Finset.mem_Icc.2 ⟨h1, h2⟩
  rw [← Finset.add_sum_erase _ _ hmem, Finset.mul_sum]
  simp only [if_true]
  congr 1
  apply Finset.sum_congr rfl
  intro l hl
  have hne : l ≠ tl := Finset.ne_of_mem_erase hl
  simp [hne, mul_comm]

/-- C3 (amended): for `targetLevel` in `[1, numLevels]`, with no filesystem
failure and `numLevels` below `SIZE_MAX`, the number of files `createData`
started at level 1 writes is, for every pool and every schedule,
`numDirsPerLevel ^ targetLevel * numFilesAtTargetLevel` plus `numFilesPerDir`
files for every directory of every other level; on a pool of one worker that
is also the file count it returns, provided it fits in `int`. -/
theorem createData_files_target_plus_rest
    (numLevels numDirsPerLevel numFilesPerDir fileSizeKB targetLevel numFilesAtTargetLevel : Nat)
    (threads : ℕ+) (sched : Path → List FanAction)
    (fuel : Nat) (parentDir : Path) (hfuel : numLevels < fuel)
    (hlev : numLevels < 18446744073709551615)
    (h1 : 1 ≤ targetLevel) (h2 : targetLevel ≤ numLevels) :
    ∃ r, createData fsOk threads sched fuel parentDir numLevels numDirsPerLevel numFilesPerDir
          fileSizeKB 1 targetLevel numFilesAtTargetLevel = some r
      ∧ r.trace.countP FsOp.isWrite
          = numDirsPerLevel ^ targetLevel * numFilesAtTargetLevel
            + numFilesPerDir
              * ∑ l ∈ (Finset.Icc 1 numLevels).erase targetLevel, numDirsPerLevel ^ l
      ∧ (threads = 1 →
          numDirsPerLevel ^ targetLevel * numFilesAtTargetLevel
            + numFilesPerDir
              * ∑ l ∈ (Finset.Icc 1 numLevels).erase targetLevel, numDirsPerLevel ^ l
            < 2147483648 →
          r.files = ((numDirsPerLevel ^ targetLevel * numFilesAtTargetLevel
            + numFilesPerDir
              * ∑ l ∈ (Finset.Icc 1 numLevels).erase targetLevel, numDirsPerLevel ^ l : Nat)
                : Int)) := by
  obtain ⟨r, hr, hok⟩ := createData_fsOk threads sched numLevels numDirsPerLevel numFilesPerDir
    fileSizeKB targetLevel numFilesAtTargetLevel (by omega) numLevels fuel parentDir 1 hfuel
    (by omega)
  have hsum : filesBelow numDirsPerLevel
      (fun l => filesToCreate numFilesPerDir l targetLevel numFilesAtTargetLevel) numLevels 1
      = numDirsPerLevel ^ targetLevel * numFilesAtTargetLevel
        + numFilesPerDir
          * ∑ l ∈ (Finset.Icc 1 numLevels).erase targetLevel, numDirsPerLevel ^ l := by
    rw [filesBelow_eq_sum]
    unfold filesToCreate
    exact sum_levels_split _ _ _ _ _ h1 h2
  refine ⟨r, hr, ?_, ?_⟩
  · rw [hok.trace.countP_eq, expectedTrace_countP_write, hsum]
  · intro hone hfit
    rw [hok.files hone, hsum]
    exact wrapInt32_natCast_of_lt _ hfit

/-- C3 (amended), in the scenario of the specification: `4 * 3 + 1 * 2 = 14`
files written, and reported on one worker. -/
theorem createData_files_target_plus_rest_witness :
    ∃ r, createData fsOk 1 noSchedule 3 [] 2 2 1 1 1 2 3 = some r
      ∧ r.trace.countP FsOp.isWrite = 14 ∧ r.files = 2 ^ 2 * 3 + 1 * 2 := by
  obtain ⟨r, hr, hw, hf⟩ := createData_files_target_plus_rest 2 2 1 1 2 3 1 noSchedule 3 []
    (by decide) (by decide) (by decide) (by decide)
  exact ⟨r, hr, by rw [hw]; decide, by rw [hf rfl (by decide)]; decide⟩

/-- C8 (as stated, refuted): three directories to create at one level, the
second creation fails: the third directory is never created, one directory
is counted and no file is written, although `numFilesPerDir = 1`. -/
theorem createData_failure_aborts_level :
    ∃ r, createData (fun p => p == [(1, 1)]) 1 noSchedule 2 [] 1 3 1 1 1 0 0 = some r
      ∧ FsOp.mkdir [(1, 2)] ∉ r.trace ∧ r.dirs = 1 ∧ r.files = 0
      ∧ FsOp.write [(1, 0)] 0 ∉ r.trace := by
  refine ⟨_, rfl, ?_, ?_, ?_, ?_⟩ <;> decide

/-- C8 (amended): when the creation of child `i` is the first to fail in a
`createData` call, the failure is caught inside that call, which returns
normally: the children before `i` are created and counted, no child after
`i` is created, no file is written at that level and no child is recursed
into. -/
theorem createData_mkdir_failure (fsFail : Path → Bool) (threads : ℕ+)
    (sched : Path → List FanAction) (fuel : Nat) (parentDir : Path)
    (numLevels numDirsPerLevel numFilesPerDir fileSizeKB currentLevel targetLevel
      numFilesAtTargetLevel i : Nat)
    (hL : currentLevel ≤ numLevels) (hi : i < numDirsPerLevel)
    (hfail : fsFail (parentDir ++ [(currentLevel, i)]) = true)
    (hbefore : ∀ j, j < i → fsFail (parentDir ++ [(currentLevel, j)]) = false) :
    createData fsFail threads sched (fuel + 1) parentDir numLevels numDirsPerLevel
        numFilesPerDir fileSizeKB currentLevel targetLevel numFilesAtTargetLevel
      = some ⟨wrapInt32 i, 0, (directoriesToCreate parentDir i currentLevel).map FsOp.mkdir⟩ := by
  obtain ⟨post, hsplit⟩ := directoriesToCreate_split parentDir numDirsPerLevel currentLevel i hi
  have hpre : ∀ e ∈ directoriesToCreate parentDir i currentLevel, fsFail e = false := by
    intro e he
    obtain ⟨j, hj, rfl⟩ := (mem_directoriesToCreate _ _ _ _).1 he
    exact hbefore j hj
  have hle : ¬ currentLevel > numLevels := by omega
  have h0 : (⟨0, 0, []⟩ : GenResult) = ⟨wrapInt32 0, 0, []⟩ := by rw [wrapInt32_zero]
  simp only [createData, hle, if_false]
  rw [hsplit, h0, createDirectories_fail fsFail _ _ post hpre hfail]
  simp [length_directoriesToCreate]

/-- C8 (amended), at three directories of which the second fails. -/
theorem createData_mkdir_failure_witness :
    createData (fun p => p == [(1, 1)]) 1 noSchedule 2 [] 1 3 1 1 1 0 0
      = some ⟨1, 0, [FsOp.mkdir [(1, 0)]]⟩ :=
  createData_mkdir_failure (fun p => p == [(1, 1)]) 1 noSchedule 1 [] 1 3 1 1 1 0 0 1
    (by decide) (by decide) (by decide) (by decide)

/-! ### The worker pool -/

/-- What every reachable pool state satisfies. -/
structure PoolInv (threads : Nat) (s : ThreadPool) : Prop where
  size : s.workers_.length = threads
  busy : s.working_threads_ = (s.workers_.countP Worker.isRunning : Nat)
  units : ∀ a, s.submitted.count a = s.executed.count a + s.inFlight.count a + s.tasks_.count a
  gone : Worker.exited ∈ s.workers_ → s.stop_ = true ∧ s.tasks_ = []

theorem poolInv_create (threads : Nat) : PoolInv threads (ThreadPool.create threads) := by
  refine ⟨by simp [ThreadPool.create], ?_, ?_, ?_⟩
  · simp only [ThreadPool.create]
    rw [List.countP_eq_zero.2]
    · rfl
    · intro a ha
      rw [List.eq_of_mem_replicate ha]
      simp [Worker.isRunning]
  · intro a
    have : (List.replicate threads Worker.waiting).filterMap Worker.task? = [] := by
      rw [List.filterMap_eq_nil_iff]
      intro x hx
      rw [List.eq_of_mem_replicate hx]
      rfl
    simp [ThreadPool.create, ThreadPool.inFlight, this]
  · intro h
    simp only [ThreadPool.create] at h
    have := List.eq_of_mem_replicate h
    cases this

theorem poolInv_step (threads : Nat) (a : PoolAction) (s s' : ThreadPool)
    (hinv : PoolInv threads s) (h : s.step a = some s') : PoolInv threads s' := by
  obtain ⟨hsize, hbusy, hunits, hgone⟩ := hinv
  cases a with
  | enqueue task =>
    simp only [ThreadPool.step, ThreadPool.enqueue] at h
    split at h
    · cases h
    · rename_i hstop
      cases h
      refine ⟨hsize, hbusy, ?_, ?_⟩
      · intro a
        have := hunits a
        simp only [ThreadPool.inFlight, List.count_append] at this ⊢
        omega
      · intro hex
        have := (hgone hex).1
        exact absurd this hstop
  | dequeue w =>
    simp only [ThreadPool.step, ThreadPool.workerFunctionDequeue] at h
    split at h
    · rename_i hw
      obtain ⟨pre, post, hl, hset⟩ := getElem?_split _ _ _ hw
      split at h
      · split at h
        · rename_i _ hexit
          cases h
          simp only [Bool.and_eq_true, List.isEmpty_iff] at hexit
          refine ⟨by simp [hsize], ?_, ?_, ?_⟩
          · simp only [hset]
            rw [hbusy, hl]
            simp [List.countP_append, List.countP_cons, Worker.isRunning]
          · intro a
            have := hunits a
            simp only [ThreadPool.inFlight, hset] at this ⊢
            rw [hl] at this
            simpa [List.filterMap_append, List.filterMap_cons, Worker.task?] using this
          · intro _
            exact ⟨hexit.1, hexit.2⟩
        · rename_i _ hexit
          split at h
          · cases h
          · rename_i task rest htasks
            cases h
            have hnot : Worker.exited ∉ s.workers_ := by
              intro hex
              have := (hgone hex).2
              rw [htasks] at this
              cases this
            refine ⟨by simp [hsize], ?_, ?_, ?_⟩
            · simp only [hset]
              rw [hbusy, hl]
              simp [List.countP_append, List.countP_cons, Worker.isRunning]
              omega
            · intro a
              have := hunits a
              simp only [ThreadPool.inFlight, hset] at this ⊢
              rw [hl, htasks] at this
              simp only [List.filterMap_append, List.filterMap_cons, Worker.task?,
                List.count_append, List.count_cons] at this ⊢
              omega
            · intro hex
              simp only [hset] at hex
              rw [hl] at hnot
              simp only [List.mem_append, List.mem_cons] at hex hnot
              rcases hex with h1 | h1 | h1
              · exact absurd (Or.inl h1) hnot
              · cases h1
              · exact absurd (Or.inr (Or.inr h1)) hnot
      · cases h
    · cases h
  | finish w =>
    simp only [ThreadPool.step, ThreadPool.workerFunctionFinish] at h
    split at h
    · rename_i task hw
      obtain ⟨pre, post, hl, hset⟩ := getElem?_split _ _ _ hw
      cases h
      refine ⟨by simp [hsize], ?_, ?_, ?_⟩
      · simp only [hset]
        rw [hbusy, hl]
        simp [List.countP_append, List.countP_cons, Worker.isRunning]
        omega
      · intro a
        have := hunits a
        simp only [ThreadPool.inFlight, hset] at this ⊢
        rw [hl] at this
        simp only [List.filterMap_append, List.filterMap_cons, Worker.task?,
          List.count_append, List.count_cons, List.count_nil] at this ⊢
        omega
      · intro hex
        simp only [hset] at hex
        have hex2 : Worker.exited ∈ s.workers_ := by
          rw [hl]
          simp only [List.mem_append, List.mem_cons] at hex ⊢
          rcases hex with h1 | h1 | h1
          · exact Or.inl h1
          · cases h1
          · exact Or.inr (Or.inr h1)
        exact hgone hex2
    · cases h
  | shutdown =>
    simp only [ThreadPool.step, Option.some.injEq] at h
    subst h
    refine ⟨hsize, hbusy, hunits, ?_⟩
    intro hex
    exact ⟨rfl, (hgone hex).2⟩

theorem poolInv_run (threads : Nat) (sched : List PoolAction) :
    ∀ (s s' : ThreadPool), PoolInv threads s → ThreadPool.run sched s = some s' →
      PoolInv threads s' := by
  induction sched with
  | nil =>
    intro s s' hinv h
    simp only [ThreadPool.run, Option.some.injEq] at h
    exact h ▸ hinv
  | cons a rest ih =>
    intro s s' hinv h
    simp only [ThreadPool.run] at h
    cases hstep : s.step a with
    | none => rw [hstep] at h; cases h
    | some s1 =>
      rw [hstep] at h
      exact ih s1 s' (poolInv_step threads a s s1 hinv hstep) h

theorem inFlight_eq_nil_of_none_running (s : ThreadPool)
    (h : ∀ w ∈ s.workers_, w.isRunning = false) : s.inFlight = [] := by
  unfold ThreadPool.inFlight
  rw [List.filterMap_eq_nil_iff]
  intro w hw
  have := h w hw
  cases w <;> simp_all [Worker.isRunning, Worker.task?]

/-- C6: in every state the pool reaches from its construction by enqueues,
dequeues, finishes (and the destructor's stop), `working_threads_` is the
number of workers that have dequeued a unit and not finished it; so when the
condition of `waitFinished` holds, the queue is empty, no worker is
executing a unit, and the executed units are exactly the submitted ones. -/
theorem waitFinished_sound (threads : Nat) (sched : List PoolAction) (s : ThreadPool)
    (h : ThreadPool.run sched (ThreadPool.create threads) = some s) :
    s.working_threads_ = ((s.workers_.countP Worker.isRunning : Nat) : Int)
      ∧ (s.waitFinishedReturns = true →
          s.tasks_ = [] ∧ (∀ w ∈ s.workers_, w.isRunning = false) ∧ s.inFlight = []
            ∧ s.submitted.Perm s.executed) := by
  have hinv := poolInv_run threads sched _ _ (poolInv_create threads) h
  refine ⟨hinv.busy, ?_⟩
  intro hret
  simp only [ThreadPool.waitFinishedReturns, Bool.and_eq_true, List.isEmpty_iff,
    beq_iff_eq] at hret
  obtain ⟨hq, hw⟩ := hret
  have hnone : ∀ w ∈ s.workers_, w.isRunning = false := by
    have hc : s.workers_.countP Worker.isRunning = 0 := by
      have := hinv.busy
      rw [hw] at this
      exact_mod_cast this.symm
    intro w hmem
    have := (List.countP_eq_zero.1 hc) w hmem
    simpa using this
  have hfl := inFlight_eq_nil_of_none_running s hnone
  refine ⟨hq, hnone, hfl, ?_⟩
  rw [List.perm_iff_count]
  intro a
  have := hinv.units a
  rw [hfl, hq] at this
  simpa using this

/-- C6, on a pool of one worker that ran one unit. -/
theorem waitFinished_sound_witness :
    ∃ s, ThreadPool.run [PoolAction.enqueue 7, PoolAction.dequeue 0, PoolAction.finish 0]
          (ThreadPool.create 1) = some s
      ∧ s.waitFinishedReturns = true ∧ s.working_threads_ = 0 ∧ s.tasks_ = []
      ∧ s.inFlight = [] ∧ s.submitted.Perm s.executed :=
  have h := waitFinished_sound 1
    [PoolAction.enqueue 7, PoolAction.dequeue 0, PoolAction.finish 0]
    ⟨[Worker.waiting], [], false, 0, [7], [7]⟩ (by decide)
  ⟨⟨[Worker.waiting], [], false, 0, [7], [7]⟩, by decide, by decide, h.1,
    (h.2 (by decide)).1, (h.2 (by decide)).2.2.1, (h.2 (by decide)).2.2.2⟩

/-- C7 (as stated, refuted): a unit is queued, then the destructor sets
`stop_`; the waiting worker still dequeues the unit and runs it. -/
theorem stopped_pool_runs_queued_unit :
    ∃ s s1 s2, ThreadPool.run [PoolAction.enqueue 7, PoolAction.shutdown] (ThreadPool.create 1)
          = some s
      ∧ s.stop_ = true ∧ s.tasks_ = [7]
      ∧ s.workerFunctionDequeue 0 = some s1 ∧ s1.workers_ = [Worker.running 7] ∧ s1.tasks_ = []
      ∧ s1.workerFunctionFinish 0 = some s2 ∧ s2.executed = [7] :=
  ⟨⟨[Worker.waiting], [7], true, 0, [7], []⟩, ⟨[Worker.running 7], [], true, 1, [7], []⟩,
    ⟨[Worker.waiting], [], true, 0, [7], [7]⟩,
    by decide, by decide, by decide, by decide, by decide, by decide, by decide, by decide⟩

/-- C7 (amended): in every state the pool reaches, once `stop_` is set no
unit is accepted any more, but queued units are not dropped: a waiting
worker takes the front unit whenever the queue is not empty, and returns
only when `stop_` is set and the queue is empty; so in a pool with at least
one worker, when all workers have returned the queue is empty and every
submitted unit has been executed. -/
theorem shutdown_drains_queue (threads : Nat) (sched : List PoolAction) (s : ThreadPool)
    (h : ThreadPool.run sched (ThreadPool.create threads) = some s) :
    (s.stop_ = true → ∀ task, s.enqueue task = none)
      ∧ (∀ w task rest, s.workers_[w]? = some Worker.waiting → s.tasks_ = task :: rest →
          s.workerFunctionDequeue w
            = some { s with tasks_ := rest, working_threads_ := s.working_threads_ + 1,
                            workers_ := s.workers_.set w (Worker.running task) })
      ∧ (∀ w s1, s.workers_[w]? = some Worker.waiting → s.workerFunctionDequeue w = some s1 →
          s1.workers_[w]? = some Worker.exited → s.stop_ = true ∧ s.tasks_ = [])
      ∧ (0 < threads → s.allJoined = true → s.tasks_ = [] ∧ s.submitted.Perm s.executed) := by
  have hinv := poolInv_run threads sched _ _ (poolInv_create threads) h
  refine ⟨?_, ?_, ?_, ?_⟩
  · intro hstop task
    simp [ThreadPool.enqueue, hstop]
  · intro w task rest hw htasks
    simp [ThreadPool.workerFunctionDequeue, hw, htasks]
  · intro w s1 hw hdq hex
    simp only [ThreadPool.workerFunctionDequeue, hw] at hdq
    have hlt : w < s.workers_.length := by
      rcases Nat.lt_or_ge w s.workers_.length with hh | hh
      · exact hh
      · rw [List.getElem?_eq_none hh] at hw
        cases hw
    split at hdq
    · split at hdq
      · rename_i _ hexit
        simp only [Bool.and_eq_true, List.isEmpty_iff] at hexit
        exact hexit
      · split at hdq
        · cases hdq
        · cases hdq
          simp only [List.getElem?_set_self hlt] at hex
          cases hex
    · cases hdq
  · intro hpos hall
    simp only [ThreadPool.allJoined, List.all_eq_true, beq_iff_eq] at hall
    have hne : s.workers_ ≠ [] := by
      intro he
      have := hinv.size
      rw [he] at this
      simp at this
      omega
    obtain ⟨w0, hw0⟩ := List.exists_mem_of_ne_nil _ hne
    have hex : Worker.exited ∈ s.workers_ := by
      have := hall w0 hw0
      rw [this] at hw0
      exact hw0
    have hq := (hinv.gone hex).2
    have hfl : s.inFlight = [] := by
      apply inFlight_eq_nil_of_none_running
      intro w hw
      rw [hall w hw]
      rfl
    refine ⟨hq, ?_⟩
    rw [List.perm_iff_count]
    intro a
    have := hinv.units a
    rw [hfl, hq] at this
    simpa using this

/-- C7 (amended), on a pool of one worker stopped with one unit queued: the
worker runs the unit and only then returns. -/
theorem shutdown_drains_queue_witness :
    ∃ s, ThreadPool.run [PoolAction.enqueue 7, PoolAction.shutdown, PoolAction.dequeue 0,
          PoolAction.finish 0, PoolAction.dequeue 0] (ThreadPool.create 1) = some s
      ∧ s.allJoined = true ∧ s.tasks_ = [] ∧ s.submitted.Perm s.executed
      ∧ s.executed = [7] :=
  have h := (shutdown_drains_queue 1
    [PoolAction.enqueue 7, PoolAction.shutdown, PoolAction.dequeue 0, PoolAction.finish 0,
      PoolAction.dequeue 0]
    ⟨[Worker.exited], [], true, 0, [7], [7]⟩ (by decide)).2.2.2 (by decide) (by decide)
  ⟨⟨[Worker.exited], [], true, 0, [7], [7]⟩, by decide, by decide, h.1, h.2, rfl⟩

/-! ### The directory querier -/

mutual
theorem traverseDirectoryTaskSeq_eq : ∀ (es : List Entry) (s : Querier),
    traverseDirectoryTaskSeq es s
      = { s with file_count := s.file_count + countFilesL es,
                 dir_count := s.dir_count + countDirsL es }
  | [], s => by simp [traverseDirectoryTaskSeq, countFilesL, countDirsL]
  | e :: rest, s => by
    rw [traverseDirectoryTaskSeq, classifySeq_eq e s, traverseDirectoryTaskSeq_eq rest]
    simp only [countFilesL, countDirsL, Nat.add_assoc]
theorem classifySeq_eq : ∀ (e : Entry) (s : Querier),
    classifySeq e s
      = { s with file_count := s.file_count + countFiles e,
                 dir_count := s.dir_count + countDirs e }
  | Entry.file, s => by simp [classifySeq, countFiles, countDirs]
  | Entry.other, s => by simp [classifySeq, countFiles, countDirs]
  | Entry.dir children, s => by
    rw [classifySeq, traverseDirectoryTaskSeq_eq children]
    simp only [countFiles, countDirs, Nat.add_assoc]
end

/-- What every state of a concurrent traversal of `root` satisfies. -/
structure QuerierInv (root : List Entry) (s : Querier) : Prop where
  active : s.active_tasks_ = ((s.tasks_.length + s.scanning.length : Nat) : Int)
  ledger : s.submitted = s.finished + (s.tasks_.length + s.scanning.length)
  files : s.file_count + ((s.tasks_.map countFilesL).sum + (s.scanning.map countFilesL).sum)
    = countFilesL root
  dirs : s.dir_count + ((s.tasks_.map countDirsL).sum + (s.scanning.map countDirsL).sum)
    = countDirsL root
  units : s.submitted = 1 + s.dir_count

theorem querierInv_start (threads : Nat) (root : List Entry) :
    QuerierInv root (queryDirectoryRecursively true threads root) := by
  refine ⟨?_, ?_, ?_, ?_, ?_⟩ <;>
    simp [queryDirectoryRecursively, Querier.traverseDirectory, Querier.create]

theorem querierInv_step (root : List Entry) (a : QuerierAction) (s s' : Querier)
    (hinv : QuerierInv root s) (h : s.step a = some s') : QuerierInv root s' := by
  obtain ⟨hact, hled, hfiles, hdirs, hunits⟩ := hinv
  cases a with
  | dequeue =>
    simp only [Querier.step] at h
    split at h
    · cases h
    · rename_i path rest htasks
      split at h
      · cases h
        rw [htasks] at hact hled hfiles hdirs
        refine ⟨?_, ?_, ?_, ?_, hunits⟩
        · simp only [hact, List.length_cons, List.length_append, List.length_nil]
          push_cast
          ring
        · simp only [hled, List.length_cons, List.length_append, List.length_nil]
          omega
        · simp only [List.map_cons, List.sum_cons, List.map_append, List.sum_append,
            List.map_nil, List.sum_nil] at hfiles ⊢
          omega
        · simp only [List.map_cons, List.sum_cons, List.map_append, List.sum_append,
            List.map_nil, List.sum_nil] at hdirs ⊢
          omega
      · cases h
  | scan k =>
    simp only [Querier.step] at h
    split at h
    · rename_i e rest hk
      obtain ⟨pre, post, hl, hset⟩ := getElem?_split _ _ _ hk
      cases h
      rw [hl] at hact hled hfiles hdirs
      cases e with
      | file =>
        refine ⟨?_, ?_, ?_, ?_, hunits⟩
        · simp only [Querier.classify, hset]
          simpa using hact
        · simp only [Querier.classify, hset]
          simpa using hled
        · simp only [Querier.classify, hset]
          simp only [List.map_cons, List.sum_cons, List.map_append, List.sum_append,
            countFilesL, countFiles] at hfiles ⊢
          omega
        · simp only [Querier.classify, hset]
          simp only [List.map_cons, List.sum_cons, List.map_append, List.sum_append,
            countDirsL, countDirs] at hdirs ⊢
          omega
      | other =>
        refine ⟨?_, ?_, ?_, ?_, hunits⟩
        · simp only [Querier.classify, hset]
          simpa using hact
        · simp only [Querier.classify, hset]
          simpa using hled
        · simp only [Querier.classify, hset]
          simp only [List.map_cons, List.sum_cons, List.map_append, List.sum_append,
            countFilesL, countFiles] at hfiles ⊢
          omega
        · simp only [Querier.classify, hset]
          simp only [List.map_cons, List.sum_cons, List.map_append, List.sum_append,
            countDirsL, countDirs] at hdirs ⊢
          omega
      | dir children =>
        refine ⟨?_, ?_, ?_, ?_, ?_⟩
        · simp only [Querier.classify, Querier.traverseDirectory, hset, hact]
          simp only [List.length_cons, List.length_append, List.length_nil]
          push_cast
          ring
        · simp only [Querier.classify, Querier.traverseDirectory, hset, hled]
          simp only [List.length_cons, List.length_append, List.length_nil]
          omega
        · simp only [Querier.classify, Querier.traverseDirectory, hset]
          simp only [List.map_cons, List.sum_cons, List.map_append, List.sum_append,
            List.map_nil, List.sum_nil, countFilesL, countFiles] at hfiles ⊢
          omega
        · simp only [Querier.classify, Querier.traverseDirectory, hset]
          simp only [List.map_cons, List.sum_cons, List.map_append, List.sum_append,
            List.map_nil, List.sum_nil, countDirsL, countDirs] at hdirs ⊢
          omega
        · simp only [Querier.classify, Querier.traverseDirectory, hunits]
          omega
    · cases h
  | finish k =>
    simp only [Querier.step] at h
    split at h
    · rename_i hk
      obtain ⟨pre, post, hl, herase⟩ := getElem?_split_erase _ _ _ hk
      cases h
      rw [hl] at hact hled hfiles hdirs
      refine ⟨?_, ?_, ?_, ?_, hunits⟩
      · simp only [herase, hact, List.length_cons, List.length_append]
        push_cast
        ring
      · simp only [herase, hled, List.length_cons, List.length_append]
        omega
      · simp only [herase]
        simp only [List.map_cons, List.sum_cons, List.map_append, List.sum_append,
          countFilesL] at hfiles ⊢
        omega
      · simp only [herase]
        simp only [List.map_cons, List.sum_cons, List.map_append, List.sum_append,
          countDirsL] at hdirs ⊢
        omega
    · cases h

theorem querierInv_run (root : List Entry) (sched : List QuerierAction) :
    ∀ (s s' : Querier), QuerierInv root s → Querier.run sched s = some s' →
      QuerierInv root s' := by
  induction sched with
  | nil =>
    intro s s' hinv h
    simp only [Querier.run, Option.some.injEq] at h
    exact h ▸ hinv
  | cons a rest ih =>
    intro s s' hinv h
    simp only [Querier.run] at h
    cases hstep : s.step a with
    | none => rw [hstep] at h; cases h
    | some s1 =>
      rw [hstep] at h
      exact ih s1 s' (querierInv_step root a s s1 hinv hstep) h

/-- When `active_tasks_` is zero nothing is queued or being scanned, and both
counters hold the totals of the tree. -/
theorem querierInv_done (root : List Entry) (s : Querier) (hinv : QuerierInv root s)
    (h0 : s.active_tasks_ = 0) :
    s.tasks_ = [] ∧ s.scanning = [] ∧ s.file_count = countFilesL root
      ∧ s.dir_count = countDirsL root := by
  have hlen : s.tasks_.length + s.scanning.length = 0 := by
    have := hinv.active
    rw [h0] at this
    exact_mod_cast this.symm
  have ht : s.tasks_ = [] := List.length_eq_zero.1 (by omega)
  have hs : s.scanning = [] := List.length_eq_zero.1 (by omega)
  have hf := hinv.files
  have hd := hinv.dirs
  rw [ht, hs] at hf hd
  exact ⟨ht, hs, by simpa using hf, by simpa using hd⟩

/-- With at least one worker, some schedule brings a traversal to its end. -/
theorem exists_complete_schedule : ∀ (n : Nat) (s : Querier), s.remaining ≤ n → 0 < s.threads →
    ∃ sched s', Querier.run sched s = some s' ∧ s'.tasks_ = [] ∧ s'.scanning = [] := by
  intro n
  induction n with
  | zero =>
    intro s hrem _
    refine ⟨[], s, rfl, ?_, ?_⟩
    · cases ht : s.tasks_ with
      | nil => rfl
      | cons u us =>
        simp only [Querier.remaining, ht, List.map_cons, List.sum_cons] at hrem
        omega
    · cases hs : s.scanning with
      | nil => rfl
      | cons u us =>
        simp only [Querier.remaining, hs, List.map_cons, List.sum_cons] at hrem
        omega
  | succ n ih =>
    intro s hrem hthr
    cases hs : s.scanning with
    | nil =>
      cases ht : s.tasks_ with
      | nil => exact ⟨[], s, rfl, ht, hs⟩
      | cons path rest =>
        have hstep : s.step QuerierAction.dequeue
            = some { s with tasks_ := rest, scanning := s.scanning ++ [path] } := by
          simp [Querier.step, ht, hs, hthr]
        obtain ⟨sched, s', hrun, h1, h2⟩ :=
          ih { s with tasks_ := rest, scanning := s.scanning ++ [path] }
            (by
              simp only [Querier.remaining, ht, hs, List.map_cons, List.sum_cons, List.map_nil,
                List.sum_nil, List.nil_append] at hrem ⊢
              omega)
            hthr
        exact ⟨QuerierAction.dequeue :: sched, s', by simp [Querier.run, hstep, hrun], h1, h2⟩
    | cons u us =>
      cases u with
      | nil =>
        have hstep : s.step (QuerierAction.finish 0)
            = some { s with scanning := us, active_tasks_ := s.active_tasks_ - 1,
                            finished := s.finished + 1 } := by
          simp [Querier.step, hs]
        obtain ⟨sched, s', hrun, h1, h2⟩ :=
          ih { s with scanning := us, active_tasks_ := s.active_tasks_ - 1,
                      finished := s.finished + 1 }
            (by
              simp only [Querier.remaining, hs, List.map_cons, List.sum_cons, workL] at hrem ⊢
              omega)
            hthr
        exact ⟨QuerierAction.finish 0 :: sched, s', by simp [Querier.run, hstep, hrun], h1, h2⟩
      | cons e rest =>
        have hstep : s.step (QuerierAction.scan 0)
            = some (Querier.classify e { s with scanning := rest :: us }) := by
          simp [Querier.step, hs]
        obtain ⟨sched, s', hrun, h1, h2⟩ :=
          ih (Querier.classify e { s with scanning := rest :: us })
            (by
              cases e <;>
                simp only [Querier.remaining, Querier.classify, Querier.traverseDirectory, hs,
                  List.map_cons, List.sum_cons, List.map_append, List.sum_append, List.map_nil,
                  List.sum_nil, workL, work] at hrem ⊢ <;>
                omega)
            (by cases e <;> exact hthr)
        exact ⟨QuerierAction.scan 0 :: sched, s', by simp [Querier.run, hstep, hrun], h1, h2⟩

/-- C4: for every tree, every pool size and every schedule of the work
units, a concurrent traversal that has reached the condition on which
`queryDirectoryRecursively` returns holds the same `(file_count, dir_count)`
as the sequential traversal of the same tree; with at least one worker such
a state is reached. -/
theorem concurrent_counts_eq_sequential (threads : Nat) (root : List Entry) :
    (∀ (sched : List QuerierAction) (s : Querier),
        Querier.run sched (queryDirectoryRecursively true threads root) = some s →
        s.returns = true →
        (s.file_count, s.dir_count)
          = ((queryDirectoryRecursively false threads root).file_count,
             (queryDirectoryRecursively false threads root).dir_count))
      ∧ (0 < threads → ∃ sched s,
          Querier.run sched (queryDirectoryRecursively true threads root) = some s
            ∧ s.returns = true) := by
  constructor
  · intro sched s hrun hret
    have hinv := querierInv_run root sched _ _ (querierInv_start threads root) hrun
    simp only [Querier.returns, beq_iff_eq] at hret
    obtain ⟨_, _, hf, hd⟩ := querierInv_done root s hinv hret
    simp [queryDirectoryRecursively, traverseDirectoryTaskSeq_eq, Querier.create, hf, hd]
  · intro hthr
    obtain ⟨sched, s, hrun, h1, h2⟩ :=
      exists_complete_schedule _ (queryDirectoryRecursively true threads root) (le_refl _)
        (by simpa [queryDirectoryRecursively, Querier.traverseDirectory, Querier.create]
          using hthr)
    have hinv := querierInv_run root sched _ _ (querierInv_start threads root) hrun
    refine ⟨sched, s, hrun, ?_⟩
    have := hinv.active
    rw [h1, h2] at this
    simp only [Querier.returns, beq_iff_eq]
    simpa using this

/-- C4, on an empty root directory: `(0, 0)` in both modes. -/
theorem concurrent_counts_eq_sequential_witness :
    ∃ s, Querier.run [QuerierAction.dequeue, QuerierAction.finish 0]
          (queryDirectoryRecursively true 1 []) = some s
      ∧ s.returns = true
      ∧ (s.file_count, s.dir_count) = ((queryDirectoryRecursively false 1 []).file_count,
          (queryDirectoryRecursively false 1 []).dir_count)
      ∧ (s.file_count, s.dir_count) = (0, 0) :=
  ⟨⟨1, [], [], 0, 0, 0, 1, 1⟩, rfl, rfl,
    (concurrent_counts_eq_sequential 1 []).1
      [QuerierAction.dequeue, QuerierAction.finish 0] ⟨1, [], [], 0, 0, 0, 1, 1⟩ rfl rfl,
    rfl⟩

/-- C5: in every state a concurrent traversal reaches after the root unit was
spawned, `active_tasks_` is non-negative and is the number of spawned units
that have not ended their scan (those queued and those scanning, that is,
the submitted ones less the finished ones); so when `active_tasks_` is zero
nothing is queued or scanning and both counters hold the totals of the
tree. -/
theorem active_tasks_counts_unfinished (threads : Nat) (root : List Entry)
    (sched : List QuerierAction) (s : Querier)
    (h : Querier.run sched (queryDirectoryRecursively true threads root) = some s) :
    0 ≤ s.active_tasks_
      ∧ s.active_tasks_ = ((s.tasks_.length + s.scanning.length : Nat) : Int)
      ∧ s.finished + (s.tasks_.length + s.scanning.length) = s.submitted
      ∧ (s.active_tasks_ = 0 →
          s.tasks_ = [] ∧ s.scanning = [] ∧ s.file_count = countFilesL root
            ∧ s.dir_count = countDirsL root) := by
  have hinv := querierInv_run root sched _ _ (querierInv_start threads root) h
  refine ⟨?_, hinv.active, hinv.ledger.symm, querierInv_done root s hinv⟩
  rw [hinv.active]
  exact Int.natCast_nonneg _

/-- C5, on a root holding a file and a directory with one file. -/
theorem active_tasks_counts_unfinished_witness :
    ∃ s, Querier.run [QuerierAction.dequeue, QuerierAction.scan 0, QuerierAction.scan 0,
          QuerierAction.dequeue, QuerierAction.finish 0, QuerierAction.scan 0,
          QuerierAction.finish 0]
          (queryDirectoryRecursively true 2 [Entry.file, Entry.dir [Entry.file]]) = some s
      ∧ s.active_tasks_ = 0 ∧ s.submitted = 2 ∧ s.finished = 2
      ∧ s.file_count = countFilesL [Entry.file, Entry.dir [Entry.file]]
      ∧ s.dir_count = countDirsL [Entry.file, Entry.dir [Entry.file]] :=
  have h := (active_tasks_counts_unfinished 2 [Entry.file, Entry.dir [Entry.file]]
    [QuerierAction.dequeue, QuerierAction.scan 0, QuerierAction.scan 0,
      QuerierAction.dequeue, QuerierAction.finish 0, QuerierAction.scan 0,
      QuerierAction.finish 0] ⟨2, [], [], 0, 2, 1, 2, 2⟩ rfl).2.2.2 rfl
  ⟨⟨2, [], [], 0, 2, 1, 2, 2⟩, rfl, rfl, rfl, rfl, h.2.2.1, h.2.2.2⟩

/-- C9 (as stated, refuted): on a root with three files, the concurrent call
has not scanned anything when `traverseDirectory` comes back: it has handed
one work unit, the scan of the root itself, to the pool. -/
theorem root_scan_is_submitted :
    (queryDirectoryRecursively true 1 [Entry.file, Entry.file, Entry.file]).submitted = 1
      ∧ (queryDirectoryRecursively true 1 [Entry.file, Entry.file, Entry.file]).tasks_
          = [[Entry.file, Entry.file, Entry.file]]
      ∧ (queryDirectoryRecursively true 1 [Entry.file, Entry.file, Entry.file]).file_count = 0
      ∧ (queryDirectoryRecursively true 1 [Entry.file, Entry.file, Entry.file]).active_tasks_
          = 1 :=
  ⟨rfl, rfl, rfl, rfl⟩

/-- C9 (amended): for a root of three regular files and no subdirectory the
sequential call yields `(3, 0)` without the pool; the concurrent call
submits one work unit, the scan of the root, and in every state reached
afterwards no further unit has been submitted, `active_tasks_` is 0 or 1,
and once it is back to zero the counters are `(3, 0)`. -/
theorem three_files_root (threads : Nat) :
    ((queryDirectoryRecursively false threads [Entry.file, Entry.file, Entry.file]).file_count,
      (queryDirectoryRecursively false threads [Entry.file, Entry.file, Entry.file]).dir_count,
      (queryDirectoryRecursively false threads [Entry.file, Entry.file, Entry.file]).submitted)
        = (3, 0, 0)
      ∧ ∀ (sched : List QuerierAction) (s : Querier),
          Querier.run sched
            (queryDirectoryRecursively true threads [Entry.file, Entry.file, Entry.file])
              = some s →
          s.submitted = 1 ∧ (s.active_tasks_ = 0 ∨ s.active_tasks_ = 1)
            ∧ (s.returns = true → (s.file_count, s.dir_count) = (3, 0)) := by
  constructor
  · rfl
  · intro sched s hrun
    have hinv := querierInv_run _ sched _ _ (querierInv_start threads _) hrun
    have hd := hinv.dirs
    have hcd : countDirsL [Entry.file, Entry.file, Entry.file] = 0 := rfl
    have hcf : countFilesL [Entry.file, Entry.file, Entry.file] = 3 := rfl
    rw [hcd] at hd
    have hdc : s.dir_count = 0 := by omega
    have hsub : s.submitted = 1 := by rw [hinv.units, hdc]
    refine ⟨hsub, ?_, ?_⟩
    · have h1 := hinv.ledger
      have h2 := hinv.active
      have : s.tasks_.length + s.scanning.length ≤ 1 := by omega
      omega
    · intro hret
      simp only [Querier.returns, beq_iff_eq] at hret
      obtain ⟨_, _, hf, hd2⟩ := querierInv_done _ s hinv hret
      rw [hf, hd2, hcf, hcd]

/-- C9 (amended), on a pool of one worker. -/
theorem three_files_root_witness :
    ∃ s, Querier.run [QuerierAction.dequeue, QuerierAction.scan 0, QuerierAction.scan 0,
          QuerierAction.scan 0, QuerierAction.finish 0]
          (queryDirectoryRecursively true 1 [Entry.file, Entry.file, Entry.file]) = some s
      ∧ s.returns = true ∧ s.submitted = 1 ∧ (s.file_count, s.dir_count) = (3, 0) :=
  have h := (three_files_root 1).2 [QuerierAction.dequeue, QuerierAction.scan 0,
    QuerierAction.scan 0, QuerierAction.scan 0, QuerierAction.finish 0]
    ⟨1, [], [], 0, 3, 0, 1, 1⟩ rfl
  ⟨⟨1, [], [], 0, 3, 0, 1, 1⟩, rfl, rfl, h.1, h.2.2 rfl⟩

/-! ### The argument checks of `main` -/

/-- The two argument checks `main` makes: fewer than two arguments, or write
mode without exactly eight: exit code 1 and nothing was run. -/
theorem main_usage_errors (stoull : String → Option Nat) (stoi : String → Option Int)
    (argv : List String) :
    (argv.length < 3 → main stoull stoi argv = ⟨MainExit.returned 1, false, 0⟩)
      ∧ (3 ≤ argv.length → argv.length ≠ 9 → (argv[1]? = some "w" ∨ argv[1]? = some "rw") →
          main stoull stoi argv = ⟨MainExit.returned 1, false, 0⟩) := by
  constructor
  · intro h
    simp [main, h]
  · intro h3 h9 hmode
    have hn : ¬ argv.length < 3 := by omega
    rcases hmode with hm | hm <;> simp [main, hn, h9, hm]

/-- C10 (the code at the failing input): read mode with the target directory
only. `argc` is 3, so the check `argc < 3` passes, no other check is made,
and `argv[3]`, the null pointer, goes to `std::stoi`: `main` does not return
1, it does not return. -/
theorem main_read_mode_without_rounds (stoull : String → Option Nat)
    (stoi : String → Option Int) (target_dir : String) :
    main stoull stoi ["./datagen", "r", target_dir] = ⟨MainExit.terminated, false, 0⟩
      ∧ (main stoull stoi ["./datagen", "r", target_dir]).exit ≠ MainExit.returned 1 := by
  have h : main stoull stoi ["./datagen", "r", target_dir] = ⟨MainExit.terminated, false, 0⟩ := by
    simp [main, mainReadPhase]
  rw [h]
  exact ⟨rfl, by decide⟩

/-! ### The estimator -/

theorem wrapSize_of_lt (x : Nat) (h : x < 18446744073709551616) : wrapSize x = x :=
  Nat.mod_eq_of_lt h

theorem wrapSize_idem (x : Nat) : wrapSize (0 + wrapSize x) = wrapSize x := by
  unfold wrapSize
  rw [Nat.zero_add, Nat.mod_mod]

/-- From a level at or above the target level, `k` levels before it. -/
theorem calculateTotalFiles_to_target (numLevels n fpd tl nft : Nat)
    (htl : tl ≤ numLevels) (hsz : numLevels < 18446744073709551616) :
    ∀ (k fuel L sum : Nat), k < fuel → L + k = tl →
      ∃ sum', calculateTotalFiles fuel numLevels n fpd L tl nft sum
        = some (wrapSize (n ^ (k + 1) * nft), sum') := by
  intro k
  induction k with
  | zero =>
    intro fuel L sum hf hL
    obtain ⟨fuel, rfl⟩ : ∃ m, fuel = m + 1 := ⟨fuel - 1, by omega⟩
    have hLt : L = tl := by omega
    refine ⟨wrapSize (sum + wrapSize (n * nft)), ?_⟩
    simp only [calculateTotalFiles, hLt, if_true, wrapSize_idem]
    simp
  | succ k ih =>
    intro fuel L sum hf hL
    obtain ⟨fuel, rfl⟩ : ∃ m, fuel = m + 1 := ⟨fuel - 1, by omega⟩
    have hne : ¬ L = tl := by omega
    have hlt : L < numLevels := by omega
    have hw : wrapSize (L + 1) = L + 1 := wrapSize_of_lt _ (by omega)
    obtain ⟨sum1, h1⟩ := ih fuel (L + 1) sum (by omega) (by omega)
    have hmul : wrapSize (n * wrapSize (n ^ (k + 1) * nft)) = wrapSize (n ^ (k + 1 + 1) * nft) := by
      unfold wrapSize
      rw [Nat.mul_mod_mod]
      congr 1
      ring
    refine ⟨wrapSize (sum1 + wrapSize (n ^ (k + 1 + 1) * nft)), ?_⟩
    simp only [calculateTotalFiles, hne, if_false, hlt, if_true, hw, h1, wrapSize_idem, hmul]

/-- From a level the target level does not follow, `k` levels before the
last one. -/
theorem calculateTotalFiles_off_target (numLevels n fpd tl nft : Nat)
    (hsz : numLevels < 18446744073709551616) :
    ∀ (k fuel L sum : Nat), k < fuel → L + k = numLevels → (tl < L ∨ numLevels < tl) →
      ∃ sum', calculateTotalFiles fuel numLevels n fpd L tl nft sum = some (0, sum') := by
  intro k
  induction k with
  | zero =>
    intro fuel L sum hf hL hout
    obtain ⟨fuel, rfl⟩ : ∃ m, fuel = m + 1 := ⟨fuel - 1, by omega⟩
    have hne : ¬ L = tl := by omega
    have hlt : ¬ L < numLevels := by omega
    exact ⟨sum, by simp only [calculateTotalFiles, hne, if_false, hlt]⟩
  | succ k ih =>
    intro fuel L sum hf hL hout
    obtain ⟨fuel, rfl⟩ : ∃ m, fuel = m + 1 := ⟨fuel - 1, by omega⟩
    have hne : ¬ L = tl := by omega
    have hlt : L < numLevels := by omega
    have hw : wrapSize (L + 1) = L + 1 := wrapSize_of_lt _ (by omega)
    obtain ⟨sum1, h1⟩ := ih fuel (L + 1) sum (by omega) (by omega) (by omega)
    refine ⟨wrapSize (sum1 + wrapSize (n * 0)), ?_⟩
    simp only [calculateTotalFiles, hne, if_false, hlt, if_true, hw, h1, wrapSize_idem]
    simp [wrapSize]

/-- `numFilesPerDir` is not read. -/
theorem calculateTotalFiles_numFilesPerDir (numLevels n tl nft fpd fpd' : Nat) :
    ∀ (fuel L sum : Nat), calculateTotalFiles fuel numLevels n fpd' L tl nft sum
      = calculateTotalFiles fuel numLevels n fpd L tl nft sum := by
  intro fuel
  induction fuel with
  | zero =>
    intro L sum
    rfl
  | succ fuel ih =>
    intro L sum
    simp only [calculateTotalFiles, ih]

/-- The per-level total counts at least one file in every directory of a
level other than the target level. -/
theorem estimate_lt_total (numLevels n fpd tl nft : Nat) (h1 : 1 ≤ numLevels)
    (hn : 0 < n) (hf : 0 < fpd) (hother : 2 ≤ numLevels ∨ tl = 0 ∨ numLevels < tl) :
    (if 1 ≤ tl ∧ tl ≤ numLevels then wrapSize (n ^ tl * nft) else 0)
      < ∑ l ∈ Finset.Icc 1 numLevels, n ^ l * (if l = tl then nft else fpd) := by
  by_cases hin : 1 ≤ tl ∧ tl ≤ numLevels
  · rw [if_pos hin, sum_levels_split _ _ _ _ _ hin.1 hin.2]
    have hle : wrapSize (n ^ tl * nft) ≤ n ^ tl * nft := Nat.mod_le _ _
    have h2 : 2 ≤ numLevels := by omega
    obtain ⟨l, hl1, hl2, hne⟩ : ∃ l, 1 ≤ l ∧ l ≤ numLevels ∧ l ≠ tl := by
      by_cases h : tl = 1
      · exact ⟨2, by omega, by omega, by omega⟩
      · exact ⟨1, by omega, by omega, fun hx => h hx.symm⟩
    have hmem : l ∈ (Finset.Icc 1 numLevels).erase tl :=
      Finset.mem_erase.2 ⟨hne, Finset.mem_Icc.2 ⟨hl1, hl2⟩⟩
    have hsingle : n ^ l ≤ ∑ x ∈ (Finset.Icc 1 numLevels).erase tl, n ^ x :=
      Finset.single_le_sum (f := fun x => n ^ x) (fun _ _ => Nat.zero_le _) hmem
    have hpow : 0 < n ^ l := pow_pos hn _
    have hpos : 0 < fpd * ∑ x ∈ (Finset.Icc 1 numLevels).erase tl, n ^ x :=
      Nat.mul_pos hf (by omega)
    omega
  · rw [if_neg hin]
    have hne : ¬ (1 = tl) := by omega
    have hmem : 1 ∈ Finset.Icc 1 numLevels := Finset.mem_Icc.2 ⟨le_refl _, h1⟩
    have hsingle := Finset.single_le_sum
      (f := fun l => n ^ l * (if l = tl then nft else fpd)) (fun _ _ => Nat.zero_le _) hmem
    simp only [hne, if_false, pow_one] at hsingle
    have : 0 < n * fpd := Nat.mul_pos hn hf
    omega

/-- C11 (as stated, refuted): one level, which is the target level, two
directories, `numFilesPerDir = 5`, three files at the target level: the
estimator returns 6, and `createData` writes 6 files and, on one worker,
reports 6 as well, although `numFilesPerDir > 0` and `numDirsPerLevel > 0`. -/
theorem estimate_equals_generated_single_level :
    calculateTotalFiles 1 1 2 5 1 1 3 0 = some (6, 6)
      ∧ ∃ r, createData fsOk 1 noSchedule 2 [] 1 2 5 1 1 1 3 = some r ∧ r.files = 6
          ∧ r.trace.countP FsOp.isWrite = 6 :=
  ⟨by decide, _, rfl, by decide, by decide⟩

/-- C11 (amended): for `numLevels >= 1`, `calculateTotalFiles` started at
level 1 returns (for every fuel from `numLevels` on)
`numDirsPerLevel ^ targetLevel * numFilesAtTargetLevel` modulo `2^64` when
`1 <= targetLevel <= numLevels` and 0 otherwise, whatever `numFilesPerDir`
is; so for `numFilesPerDir > 0` and `numDirsPerLevel > 0`, when there is a
level other than the target level (`numLevels >= 2`, or `targetLevel`
outside `[1, numLevels]`), it is smaller than the per-level file total, which
is the number of files `createData` writes under every schedule (for
`numLevels` below `SIZE_MAX`), and the count it returns on a pool of one
worker when that total fits in `int`. -/
theorem calculateTotalFiles_estimate
    (numLevels numDirsPerLevel numFilesPerDir targetLevel numFilesAtTargetLevel : Nat)
    (sumOfAllFiles fuel : Nat)
    (h1 : 1 ≤ numLevels) (hsz : numLevels < 18446744073709551616) (hfuel : numLevels ≤ fuel) :
    (∃ sum', calculateTotalFiles fuel numLevels numDirsPerLevel numFilesPerDir 1 targetLevel
          numFilesAtTargetLevel sumOfAllFiles
        = some (if 1 ≤ targetLevel ∧ targetLevel ≤ numLevels
                then numDirsPerLevel ^ targetLevel * numFilesAtTargetLevel % 18446744073709551616
                else 0, sum'))
      ∧ (∀ otherFilesPerDir,
          calculateTotalFiles fuel numLevels numDirsPerLevel otherFilesPerDir 1 targetLevel
              numFilesAtTargetLevel sumOfAllFiles
            = calculateTotalFiles fuel numLevels numDirsPerLevel numFilesPerDir 1 targetLevel
              numFilesAtTargetLevel sumOfAllFiles)
      ∧ (0 < numDirsPerLevel → 0 < numFilesPerDir →
          (2 ≤ numLevels ∨ targetLevel = 0 ∨ numLevels < targetLevel) →
          (if 1 ≤ targetLevel ∧ targetLevel ≤ numLevels
            then numDirsPerLevel ^ targetLevel * numFilesAtTargetLevel % 18446744073709551616
            else 0)
            < ∑ l ∈ Finset.Icc 1 numLevels, numDirsPerLevel ^ l
                * (if l = targetLevel then numFilesAtTargetLevel else numFilesPerDir)
          ∧ (numLevels < 18446744073709551615 →
              ∀ (threads : ℕ+) (sched : Path → List FanAction) (fuel' : Nat) (parentDir : Path)
                (fileSizeKB : Nat), numLevels < fuel' →
                ∃ r, createData fsOk threads sched fuel' parentDir numLevels numDirsPerLevel
                      numFilesPerDir fileSizeKB 1 targetLevel numFilesAtTargetLevel = some r
                  ∧ r.trace.countP FsOp.isWrite
                      = ∑ l ∈ Finset.Icc 1 numLevels, numDirsPerLevel ^ l
                          * (if l = targetLevel then numFilesAtTargetLevel else numFilesPerDir)
                  ∧ (threads = 1 →
                      ∑ l ∈ Finset.Icc 1 numLevels, numDirsPerLevel ^ l
                        * (if l = targetLevel then numFilesAtTargetLevel else numFilesPerDir)
                        < 2147483648 →
                      r.files ≠ (((if 1 ≤ targetLevel ∧ targetLevel ≤ numLevels
                        then numDirsPerLevel ^ targetLevel * numFilesAtTargetLevel
                          % 18446744073709551616
                        else 0) : Nat) : Int)))) := by
  refine ⟨?_, ?_, ?_⟩
  · by_cases hin : 1 ≤ targetLevel ∧ targetLevel ≤ numLevels
    · rw [if_pos hin]
      obtain ⟨sum', h⟩ := calculateTotalFiles_to_target numLevels numDirsPerLevel numFilesPerDir
        targetLevel numFilesAtTargetLevel hin.2 hsz (targetLevel - 1) fuel 1 sumOfAllFiles
        (by omega) (by omega)
      have hk : targetLevel - 1 + 1 = targetLevel := by omega
      rw [hk] at h
      exact ⟨sum', h⟩
    · rw [if_neg hin]
      exact calculateTotalFiles_off_target numLevels numDirsPerLevel numFilesPerDir
        targetLevel numFilesAtTargetLevel hsz (numLevels - 1) fuel 1 sumOfAllFiles
        (by omega) (by omega) (by omega)
  · intro otherFilesPerDir
    exact calculateTotalFiles_numFilesPerDir _ _ _ _ _ _ _ _ _
  · intro hn hf hother
    have hlt := estimate_lt_total numLevels numDirsPerLevel numFilesPerDir targetLevel
      numFilesAtTargetLevel h1 hn hf hother
    refine ⟨hlt, ?_⟩
    intro hlev threads sched fuel' parentDir fileSizeKB hfuel'
    obtain ⟨r, hr, hok⟩ := createData_fsOk threads sched numLevels numDirsPerLevel
      numFilesPerDir fileSizeKB targetLevel numFilesAtTargetLevel (by omega) numLevels fuel'
      parentDir 1 hfuel' (by omega)
    have hsum : filesBelow numDirsPerLevel
        (fun l => filesToCreate numFilesPerDir l targetLevel numFilesAtTargetLevel) numLevels 1
        = ∑ l ∈ Finset.Icc 1 numLevels, numDirsPerLevel ^ l
            * (if l = targetLevel then numFilesAtTargetLevel else numFilesPerDir) := by
      rw [filesBelow_eq_sum]
      rfl
    refine ⟨r, hr, ?_, ?_⟩
    · rw [hok.trace.countP_eq, expectedTrace_countP_write, hsum]
    · intro hone hfit
      rw [hok.files hone, hsum, wrapInt32_natCast_of_lt _ hfit]
      unfold wrapSize at hlt
      intro heq
      have := Int.ofNat_inj.1 heq
      omega

/-- C11 (amended), in the scenario of the specification: the estimator
returns 12, `createData` writes 14 files and on one worker reports 14. -/
theorem calculateTotalFiles_estimate_witness :
    ∃ sum' r, calculateTotalFiles 2 2 2 1 1 2 3 0 = some (12, sum')
      ∧ createData fsOk 1 noSchedule 3 [] 2 2 1 1 1 2 3 = some r
      ∧ r.trace.countP FsOp.isWrite = 14 ∧ r.files ≠ 12 := by
  obtain ⟨⟨sum', hc⟩, _, h3⟩ := calculateTotalFiles_estimate 2 2 1 2 3 0 2 (by decide)
    (by decide) (by decide)
  obtain ⟨_, hcd⟩ := h3 (by decide) (by decide) (Or.inl (by decide))
  obtain ⟨r, hr, hw, hne⟩ := hcd (by decide) 1 noSchedule 3 [] 1 (by decide)
  exact ⟨sum', r, hc, hr, by rw [hw]; decide, hne rfl (by decide)⟩

end Datagen
